import Mathlib

/-
  Verification of the xmlui-bundler installer's archive-extraction and
  install-layout logic.

  The Go sources operate on the operating-system filesystem.  We give a
  shallow embedding: paths are lists of components (filepath.Join is list
  append, filepath.Dir is dropLast), the filesystem is an association list
  from paths to nodes, and each fallible OS primitive (os.Create, io.Copy,
  os.Chmod, os.Rename) consults an injected failure set carried in the
  `World` state, so that disk-full or permission errors can be exercised.
  File modes are permission bit patterns as natural numbers (0o755 = 493,
  0o666 = 438).
-/

namespace Bundler

/-- A filesystem path, as its list of components.
    `filepath.Join(a, b)` is `a ++ b`, `filepath.Dir` is `List.dropLast`. -/
abbrev Path := List String

/-- A filesystem node: a regular file with content bytes and permission
    mode bits, or a directory. -/
inductive Node where
  | file (content : List Nat) (mode : Nat)
  | dir
deriving DecidableEq

/-- The filesystem: an association list from paths to nodes.  Earlier
    entries shadow later ones. -/
abbrev FS := List (Path × Node)

def FS.lookup : FS → Path → Option Node
  | [], _ => none
  | (q, n) :: rest, p => if q = p then some n else FS.lookup rest p

def FS.insert (fs : FS) (p : Path) (n : Node) : FS := (p, n) :: fs

/-- Mode bits passed by `os.Create` (0o666). -/
def createMode : Nat := 438

/-- Mode bits `rwxr-xr-x` (0o755), used by the extractors and chmod calls. -/
def execMode : Nat := 493

/-- `strings.HasSuffix`, on the character data (kernel-reducible). -/
def hasSuffixStr (s suf : String) : Bool := List.isSuffixOf suf.data s.data

/-- `strings.HasPrefix`, on the character data (kernel-reducible). -/
def hasPrefixStr (s pre : String) : Bool := List.isPrefixOf pre.data s.data

/-- Lexicographic byte order on names, as used by `os.ReadDir` sorting. -/
def charListLe : List Char → List Char → Bool
  | [], _ => true
  | _ :: _, [] => false
  | a :: as, b :: bs =>
    if a.val < b.val then true
    else if b.val < a.val then false
    else charListLe as bs

def strLe (a b : String) : Bool := charListLe a.data b.data

def isDirOpt : Option Node → Bool
  | some Node.dir => true
  | _ => false

def isFileOpt : Option Node → Bool
  | some (Node.file _ _) => true
  | _ => false

/-- World state threaded through the installer: the filesystem plus
    injected failure sets for each fallible OS primitive, and the set of
    paths carrying the macOS quarantine attribute. -/
structure World where
  fs : FS
  createFails : List Path
  writeFails : List Path
  chmodFails : List Path
  renameFails : List Path
  quarantine : List Path
  xattrFails : List Path
deriving DecidableEq

/-- `os.MkdirAll`: create each missing ancestor in turn.  If an ancestor
    exists as a regular file the OS call fails and creates nothing further;
    every call site in the sources discards the error, so the embedding
    returns the filesystem reached at that point. -/
def mkdirAllAux (fs : FS) (done : Path) : List String → FS
  | [] => fs
  | c :: cs =>
    let p := done ++ [c]
    match FS.lookup fs p with
    | some Node.dir => mkdirAllAux fs p cs
    | some (Node.file _ _) => fs
    | none => mkdirAllAux (FS.insert fs p Node.dir) p cs

def mkdirAll (fs : FS) (p : Path) : FS := mkdirAllAux fs [] p

/-- Whether the parent directory of `p` exists (the root `[]` always does). -/
def parentOk (fs : FS) (p : Path) : Bool :=
  if p.dropLast = [] then true else isDirOpt (FS.lookup fs p.dropLast)

/-- `os.Create`: truncating create.  Fails on an injected failure, when a
    directory sits at the path, or when the parent directory is missing. -/
def createFile (w : World) (p : Path) : Except Unit World :=
  if p ∈ w.createFails then .error ()
  else if isDirOpt (FS.lookup w.fs p) then .error ()
  else if parentOk w.fs p then
    .ok { w with fs := FS.insert w.fs p (Node.file [] createMode) }
  else .error ()

/-- `io.Copy` into an open file: replace the file's content.  Fails on an
    injected failure (disk full, decompression error). -/
def writeFile (w : World) (p : Path) (content : List Nat) : Except Unit World :=
  if p ∈ w.writeFails then .error ()
  else match FS.lookup w.fs p with
    | some (Node.file _ m) => .ok { w with fs := FS.insert w.fs p (Node.file content m) }
    | _ => .error ()

/-- `os.Chmod` / `File.Chmod`: set a file's mode bits. -/
def chmod (w : World) (p : Path) (m : Nat) : Except Unit World :=
  if p ∈ w.chmodFails then .error ()
  else match FS.lookup w.fs p with
    | some (Node.file c _) => .ok { w with fs := FS.insert w.fs p (Node.file c m) }
    | some Node.dir => .ok w
    | none => .error ()

/-- `chmod +x` run through the shell: or the three execute bits into the
    current mode. -/
def chmodPlusX (w : World) (p : Path) : Except Unit World :=
  if p ∈ w.chmodFails then .error ()
  else match FS.lookup w.fs p with
    | some (Node.file c m) => .ok { w with fs := FS.insert w.fs p (Node.file c (m ||| 73)) }
    | some Node.dir => .ok w
    | none => .error ()

/-- Rewrite a path under a rename of `src` to `dst`. -/
def movePath (src dst p : Path) : Path :=
  if src.isPrefixOf p then dst ++ p.drop src.length else p

/-- Effect of `os.Rename src dst` on the tree: drop anything previously at
    `dst`, then move the subtree rooted at `src`. -/
def renameFS (fs : FS) (src dst : Path) : FS :=
  (fs.filter (fun e => !(e.1 == dst))).map (fun e => (movePath src dst e.1, e.2))

/-- `os.Rename`: fails on an injected failure, a missing source, an
    existing directory at the destination, or a missing destination parent. -/
def rename (w : World) (src dst : Path) : Except Unit World :=
  if src ∈ w.renameFails then .error ()
  else match FS.lookup w.fs src with
    | none => .error ()
    | some _ =>
      if isDirOpt (FS.lookup w.fs dst) then .error ()
      else if parentOk w.fs dst then .ok { w with fs := renameFS w.fs src dst }
      else .error ()

/- ### Archive entries and the extractors -/

inductive EntryKind where
  | file
  | dir
deriving DecidableEq

/-- One archive entry: a relative path, a kind (directory entries are the
    ones whose FileInfo / tar typeflag reports a directory), the entry's
    decompressed content bytes, the mode bits recorded in the TAR header
    (never consulted by the extractors), and whether opening the zip
    entry's reader (`f.Open()`) succeeds. -/
structure Entry where
  path : Path
  kind : EntryKind
  content : List Nat
  mode : Nat
  openOk : Bool
deriving DecidableEq

/-- One iteration of the loop in `unzipTo` (xmlui-launcher.go:117-140).
    Directory entries: `os.MkdirAll`, error ignored.  File entries:
    `os.MkdirAll` on the parent (error ignored), `f.Open()` (error
    returned), `os.Create` (error returned), `io.Copy` (error DISCARDED by
    the source), `Close` calls (no effect modeled). -/
def unzipStep (dest : Path) (w : World) (e : Entry) : World × Except Unit Unit :=
  let fpath := dest ++ e.path
  match e.kind with
  | .dir => ({ w with fs := mkdirAll w.fs fpath }, .ok ())
  | .file =>
    let w1 : World := { w with fs := mkdirAll w.fs fpath.dropLast }
    if e.openOk then
      match createFile w1 fpath with
      | .error _ => (w1, .error ())
      | .ok w2 =>
        match writeFile w2 fpath e.content with
        | .error _ => (w2, .ok ())
        | .ok w3 => (w3, .ok ())
    else (w1, .error ())

def unzipEntries (dest : Path) (w : World) : List Entry → World × Except Unit Unit
  | [] => (w, .ok ())
  | e :: rest =>
    match unzipStep dest w e with
    | (w', .ok _) => unzipEntries dest w' rest
    | (w', .error _) => (w', .error ())

/-- `unzipTo(data, dest)` (xmlui-launcher.go:109-142).  `zip.NewReader`
    parses the central directory up front; a parse failure returns before
    any filesystem operation.  The parsed archive is the `Except` argument:
    `.error ()` is a byte sequence that does not parse as ZIP. -/
def unzipTo (parsed : Except Unit (List Entry)) (dest : Path) (w : World) :
    World × Except Unit Unit :=
  match parsed with
  | .error _ => (w, .error ())
  | .ok es => unzipEntries dest w es

/-- One iteration of the loop in `untarGzTo` (xmlui-launcher.go:156-187).
    Unlike `unzipTo`, the `io.Copy` error IS checked; `outFile.Chmod(0755)`
    has its error discarded; each non-directory entry updates
    `lastBinaryPath`. -/
def untarStep (dest : Path) (w : World) (last : Path) (e : Entry) :
    Except Unit (World × Path) :=
  let fpath := dest ++ e.path
  match e.kind with
  | .dir => .ok ({ w with fs := mkdirAll w.fs fpath }, last)
  | .file =>
    match createFile { w with fs := mkdirAll w.fs fpath.dropLast } fpath with
    | .error _ => .error ()
    | .ok w2 =>
      match writeFile w2 fpath e.content with
      | .error _ => .error ()
      | .ok w3 =>
        match chmod w3 fpath execMode with
        | .ok w4 => .ok (w4, fpath)
        | .error _ => .ok (w3, fpath)

def untarLoop (dest : Path) (w : World) (last : Path) : List Entry → Except Unit (World × Path)
  | [] => .ok (w, last)
  | e :: rest =>
    match untarStep dest w last e with
    | .error _ => .error ()
    | .ok acc => untarLoop dest acc.1 acc.2 rest

/-- `untarGzTo(data, dest)` (xmlui-launcher.go:144-189): returns
    `lastBinaryPath` (initially the empty string, modeled as `[]`) on
    success.  A gzip/tar framing failure is the `.error ()` argument. -/
def untarGzTo (parsed : Except Unit (List Entry)) (dest : Path) (w : World) :
    Except Unit (World × Path) :=
  match parsed with
  | .error _ => .error ()
  | .ok es => untarLoop dest w [] es

/-- One iteration of the loop in part_002's `untarGzTo` (part_002:127-150):
    identical to the launcher's variant except that NO chmod of any kind is
    applied to the extracted file. -/
def untarStepPart2 (dest : Path) (w : World) (last : Path) (e : Entry) :
    Except Unit (World × Path) :=
  let fpath := dest ++ e.path
  match e.kind with
  | .dir => .ok ({ w with fs := mkdirAll w.fs fpath }, last)
  | .file =>
    match createFile { w with fs := mkdirAll w.fs fpath.dropLast } fpath with
    | .error _ => .error ()
    | .ok w2 =>
      match writeFile w2 fpath e.content with
      | .error _ => .error ()
      | .ok w3 => .ok (w3, fpath)

def untarLoopPart2 (dest : Path) (w : World) (last : Path) :
    List Entry → Except Unit (World × Path)
  | [] => .ok (w, last)
  | e :: rest =>
    match untarStepPart2 dest w last e with
    | .error _ => .error ()
    | .ok acc => untarLoopPart2 dest acc.1 acc.2 rest

/-- `untarGzTo` as written in part_002:120-152 (no per-file chmod). -/
def untarGzToPart2 (parsed : Except Unit (List Entry)) (dest : Path) (w : World) :
    Except Unit (World × Path) :=
  match parsed with
  | .error _ => .error ()
  | .ok es => untarLoopPart2 dest w [] es

/- ### ensureExecutable variants -/

/-- `ensureExecutable` as written in part_000:165-183: `os.Chmod(path,
    0755)` with the error PROPAGATED; on darwin, `xattr -d
    com.apple.quarantine` with its exit status ignored (the follow-up
    `xattr -l` verification only prints). -/
def ensureExecutableP0 (goos : String) (w : World) (p : Path) : Except Unit World :=
  match chmod w p execMode with
  | .error _ => .error ()
  | .ok w1 =>
    if goos = "darwin" then
      if p ∈ w1.xattrFails then .ok w1
      else .ok { w1 with quarantine := w1.quarantine.filter (fun q => !(q == p)) }
    else .ok w1

/-- `ensureExecutable` as written in xmlui-launcher.go:191-204: an error is
    returned ONLY when `os.Stat` reports the path missing; both the Go
    `os.Chmod(path, 0755)` and the shell `chmod +x` have their failures
    merely printed, after which `nil` is returned. -/
def ensureExecutable (w : World) (p : Path) : Except Unit World :=
  if FS.lookup w.fs p = none then .error ()
  else
    let w1 : World := match chmod w p execMode with
      | .ok x => x
      | .error _ => w
    let w2 : World := match chmodPlusX w1 p with
      | .ok x => x
      | .error _ => w1
    .ok w2

/- ### Install-layout organizing -/

/-- Insertion sort on names: `os.ReadDir` returns entries sorted by
    filename. -/
def insortName (s : String) : List String → List String
  | [] => [s]
  | t :: ts => if strLe s t then s :: t :: ts else t :: insortName s ts

def sortNames (l : List String) : List String := l.foldr insortName []

/-- `os.ReadDir`: names of the immediate children of `parent`, sorted. -/
def readDirNames (fs : FS) (parent : Path) : List String :=
  sortNames ((fs.filterMap (fun e =>
    if e.1.dropLast == parent then e.1.getLast? else none)).dedup)

def moveLoop (w : World) (srcParent : Path) (repoName : String) (installDir : Path) :
    List String → Except Unit (Path × World)
  | [] => .error ()
  | n :: rest =>
    if hasPrefixStr n (repoName ++ "-") then
      match rename w (srcParent ++ [n]) (installDir ++ [repoName]) with
      | .error _ => .error ()
      | .ok w' => .ok (installDir ++ [repoName], w')
    else moveLoop w srcParent repoName installDir rest

/-- `moveIntoPlace(srcParent, repoName, installDir)` (part_000:185-202):
    scan the directory listing of `srcParent` for the first entry whose
    name starts with `repoName ++ "-"`, rename it to
    `installDir/repoName`, and return that path; with no matching entry
    return the "repo dir not found" error. -/
def moveIntoPlace (w : World) (srcParent : Path) (repoName : String) (installDir : Path) :
    Except Unit (Path × World) :=
  moveLoop w srcParent repoName installDir (readDirNames w.fs srcParent)

/-- One iteration of the MCP organizing step in part_000's main
    (part_000:253-279): `os.MkdirAll(mcpDir, 0755)` (error ignored),
    `os.Rename(tmpMCP/name, mcpDir/name)`; on rename failure print
    "Skipping" and continue; on success conditionally run
    `ensureExecutable` with `_ =` (error ignored). -/
def relocateIntoSlot (goos : String) (w : World) (srcParent slotDir : Path)
    (name : String) : World :=
  let w1 : World := { w with fs := mkdirAll w.fs slotDir }
  match rename w1 (srcParent ++ [name]) (slotDir ++ [name]) with
  | .error _ => w1
  | .ok w2 =>
    if hasSuffixStr name ".sh" || !(hasSuffixStr name ".exe") then
      match ensureExecutableP0 goos w2 (slotDir ++ [name]) with
      | .ok w3 => w3
      | .error _ => w2
    else w2

/- ### Platform URL selection and the extractor choice in main -/

def serverBaseURL : String :=
  "https://github.com/JonUdell/xmlui-test-server/releases/download/v1.0.0/"

/-- `getPlatformSpecificServerURL` (xmlui-launcher.go:54-75), as a function
    of `runtime.GOOS` and `runtime.GOARCH`. -/
def getPlatformSpecificServerURL (goos goarch : String) : String :=
  if goos = "darwin" then
    if goarch = "arm64" then serverBaseURL ++ "xmlui-test-server-mac-arm.tar.gz"
    else serverBaseURL ++ "xmlui-test-server-mac-amd.tar.gz"
  else if goos = "linux" then serverBaseURL ++ "xmlui-test-server-linux-amd.tar.gz"
  else if goos = "windows" then serverBaseURL ++ "xmlui-test-server-windows.zip"
  else serverBaseURL ++ "xmlui-test-server-mac-arm.tar.gz"

/-- The branch test in main (xmlui-launcher.go:241):
    `strings.HasSuffix(serverURL, ".tar.gz")` selects `untarGzTo`,
    otherwise `unzipTo`. -/
def serverExtractorIsTar (url : String) : Bool := hasSuffixStr url ".tar.gz"

/- ### Exit-code skeletons of the two main shapes -/

/-- Success/failure of each required step of an installation run. -/
structure StepOutcomes where
  downloadApp : Bool
  extractApp : Bool
  downloadServer : Bool
  extractServer : Bool
  downloadComponents : Bool
  extractComponents : Bool
  downloadMCP : Bool
  extractMCP : Bool
  readInstallDir : Bool
  appDirFound : Bool
  moveBinary : Bool
  markStart : Bool
  launch : Bool
deriving DecidableEq

/-- Exit code of `main` in xmlui-launcher.go:206-353: every unrecoverable
    step failure prints a message and calls `os.Exit(1)`; reaching the end
    exits 0. -/
def mainExitCode (s : StepOutcomes) : Nat :=
  if !s.downloadApp then 1
  else if !s.extractApp then 1
  else if !s.downloadServer then 1
  else if !s.extractServer then 1
  else if !s.downloadComponents then 1
  else if !s.extractComponents then 1
  else if !s.downloadMCP then 1
  else if !s.extractMCP then 1
  else if !s.readInstallDir then 1
  else if !s.appDirFound then 1
  else if !s.moveBinary then 1
  else if !s.markStart then 1
  else if !s.launch then 1
  else 0

/-- Exit code of `main` in part_003:186-257 (same shape in part_004 and in
    the second main of xmlui-launcher.go): every step failure prints a
    message and executes a bare `return` from main, so the process
    terminates normally — exit code 0 — on failure as well as success. -/
def mainExitCodeDialog (s : StepOutcomes) : Nat :=
  if !s.downloadApp then 0
  else if !s.extractApp then 0
  else if !s.downloadServer then 0
  else if !s.extractServer then 0
  else if !s.readInstallDir then 0
  else if !s.appDirFound then 0
  else if !s.moveBinary then 0
  else if !s.markStart then 0
  else if !s.launch then 0
  else 0

/-- A run of the dialog-variant main whose very first required step (the
    app download) fails. -/
def failedRun : StepOutcomes :=
  { downloadApp := false, extractApp := true, downloadServer := true,
    extractServer := true, downloadComponents := true, extractComponents := true,
    downloadMCP := true, extractMCP := true, readInstallDir := true,
    appDirFound := true, moveBinary := true, markStart := true, launch := true }

/-- A world whose only file `f` has an injected chmod failure. -/
def chmodFailWorld : World :=
  { fs := [(["f"], Node.file [] 420)], createFails := [], writeFails := [],
    chmodFails := [["f"]], renameFails := [], quarantine := [], xattrFails := [] }

/-- A world whose only file `g` is quarantined and whose quarantine
    attribute cannot be cleared. -/
def quarWorld : World :=
  { fs := [(["g"], Node.file [] 420)], createFails := [], writeFails := [],
    chmodFails := [], renameFails := [], quarantine := [["g"]], xattrFails := [["g"]] }

/-- The empty world: empty filesystem, no injected failures. -/
def emptyWorld : World :=
  { fs := [], createFails := [], writeFails := [], chmodFails := [],
    renameFails := [], quarantine := [], xattrFails := [] }

/-- A tar file entry whose header records mode 0o777. -/
def tarEntry777 : Entry :=
  { path := ["f"], kind := .file, content := [1], mode := 511, openOk := true }

/-- First tar witness entry. -/
def tarA : Entry := { path := ["a"], kind := .file, content := [1], mode := 0, openOk := true }

/-- Second tar witness entry. -/
def tarB2 : Entry := { path := ["b"], kind := .file, content := [2], mode := 0, openOk := true }

/-- The world produced by extracting `[tarA, tarB2]` into `["d"]` from the
    empty world with the launcher's `untarGzTo`. -/
def tarWitnessWorld : World :=
  { fs := [(["d", "b"], Node.file [2] execMode), (["d", "b"], Node.file [2] createMode),
           (["d", "b"], Node.file [] createMode), (["d", "a"], Node.file [1] execMode),
           (["d", "a"], Node.file [1] createMode), (["d", "a"], Node.file [] createMode),
           (["d"], Node.dir)],
    createFails := [], writeFails := [], chmodFails := [], renameFails := [],
    quarantine := [], xattrFails := [] }

/- ### C6: the returned path is the last file entry's path -/

/-- The last entry of kind `file`, in archive order. -/
def lastFileEntry : List Entry → Option Entry
  | [] => none
  | e :: rest =>
    match lastFileEntry rest with
    | some x => some x
    | none => if e.kind = EntryKind.file then some e else none

/-- A parent directory `r` containing the single branch-suffixed child
    `foo-bar`. -/
def moveWorld : World :=
  { fs := [(["r"], Node.dir), (["r", "foo-bar"], Node.dir)], createFails := [],
    writeFails := [], chmodFails := [], renameFails := [], quarantine := [],
    xattrFails := [] }

/-- `moveWorld` after `foo-bar` has been renamed to `foo`. -/
def movedWorld : World :=
  { fs := [(["r"], Node.dir), (["r", "foo"], Node.dir)], createFails := [],
    writeFails := [], chmodFails := [], renameFails := [], quarantine := [],
    xattrFails := [] }

/- ### Shape equivalence: file contents never influence control flow -/

/-- Forget file contents, keep kind and mode. -/
def shapeNode : Node → Node
  | Node.file _ m => Node.file [] m
  | Node.dir => Node.dir

/-- Two filesystems agreeing on the kind and mode of every path. -/
def FSShapeEq (a b : FS) : Prop :=
  ∀ p : Path, Option.map shapeNode (FS.lookup a p) = Option.map shapeNode (FS.lookup b p)

/-- Two worlds agreeing on everything except file contents and the
    injected write-failure set. -/
def WShapeEq (a b : World) : Prop :=
  FSShapeEq a.fs b.fs ∧ a.createFails = b.createFails ∧ a.chmodFails = b.chmodFails ∧
  a.renameFails = b.renameFails ∧ a.quarantine = b.quarantine ∧ a.xattrFails = b.xattrFails

/-- The world used by the C3 counterexample: every write to `d/a` fails. -/
def writeFailWorld : World :=
  { fs := [], createFails := [], writeFails := [["d", "a"]], chmodFails := [],
    renameFails := [], quarantine := [], xattrFails := [] }

/-- A zip file entry `a` with one content byte. -/
def zipA : Entry :=
  { path := ["a"], kind := .file, content := [9], mode := 0, openOk := true }

/-- The world used by the C3 witness: creating `d/a` fails. -/
def createFailWorld : World :=
  { fs := [], createFails := [["d", "a"]], writeFails := [], chmodFails := [],
    renameFails := [], quarantine := [], xattrFails := [] }

/- ### C1: what a successful unzip guarantees -/

/-- Two archive entries that do not conflict: no file entry's path is a
    prefix of (in particular equal to) the other entry's path. -/
abbrev entIndep (a b : Entry) : Prop :=
  ¬(a.kind = EntryKind.file ∧ a.path <+: b.path)
  ∧ ¬(b.kind = EntryKind.file ∧ b.path <+: a.path)

/-- First duplicate zip entry, content `[0]`. -/
def zipDup1 : Entry :=
  { path := ["a"], kind := .file, content := [0], mode := 0, openOk := true }

/-- Second duplicate zip entry, same path, content `[1]`. -/
def zipDup2 : Entry :=
  { path := ["a"], kind := .file, content := [1], mode := 0, openOk := true }

/-- Witness directory entry. -/
def zipDirE : Entry :=
  { path := ["proj-main"], kind := .dir, content := [], mode := 0, openOk := true }

/-- Witness file entry nested under the directory. -/
def zipFileE : Entry :=
  { path := ["proj-main", "start.sh"], kind := .file, content := [7, 8], mode := 0,
    openOk := true }

/- ### Basic lookup lemmas -/

theorem FS.lookup_insert_self (fs : FS) (p : Path) (n : Node) :
    FS.lookup (FS.insert fs p n) p = some n := by
  simp [FS.insert, FS.lookup]

theorem FS.lookup_insert_ne (fs : FS) (p q : Path) (n : Node) (h : p ≠ q) :
    FS.lookup (FS.insert fs p n) q = FS.lookup fs q := by
  simp [FS.insert, FS.lookup, h]

/- ### mkdirAll lemmas -/

/-- mkdirAll never disturbs an existing entry. -/
theorem mkdirAllAux_preserves (rest : List String) :
    ∀ (fs : FS) (done q : Path) (n : Node), FS.lookup fs q = some n →
      FS.lookup (mkdirAllAux fs done rest) q = some n := by
  induction rest with
  | nil => intro fs done q n h; simpa [mkdirAllAux] using h
  | cons c cs ih =>
    intro fs done q n h
    simp only [mkdirAllAux]
    rcases hl : FS.lookup fs (done ++ [c]) with _ | nd
    · -- none: insert then recurse
      apply ih
      by_cases hq : done ++ [c] = q
      · subst hq; rw [hl] at h; exact absurd h (by simp)
      · rwa [FS.lookup_insert_ne _ _ _ _ hq]
    · cases nd with
      | file co m => exact h
      | dir => exact ih fs (done ++ [c]) q n h

theorem mkdirAll_preserves (fs : FS) (p q : Path) (n : Node)
    (h : FS.lookup fs q = some n) :
    FS.lookup (mkdirAll fs p) q = some n :=
  mkdirAllAux_preserves p fs [] q n h

/-- mkdirAll does not change whether a path holds a regular file. -/
theorem mkdirAllAux_isFile (rest : List String) :
    ∀ (fs : FS) (done q : Path),
      isFileOpt (FS.lookup (mkdirAllAux fs done rest) q) = isFileOpt (FS.lookup fs q) := by
  induction rest with
  | nil => intro fs done q; simp [mkdirAllAux]
  | cons c cs ih =>
    intro fs done q
    simp only [mkdirAllAux]
    rcases hl : FS.lookup fs (done ++ [c]) with _ | nd
    · rw [ih]
      by_cases hq : done ++ [c] = q
      · subst hq; rw [FS.lookup_insert_self, hl]; rfl
      · rw [FS.lookup_insert_ne _ _ _ _ hq]
    · cases nd with
      | file co m => rfl
      | dir => exact ih fs (done ++ [c]) q

theorem mkdirAll_isFile (fs : FS) (p q : Path) :
    isFileOpt (FS.lookup (mkdirAll fs p) q) = isFileOpt (FS.lookup fs q) :=
  mkdirAllAux_isFile p fs [] q

theorem prefix_cons_elim {α : Type} {s : List α} {c : α} {cs : List α}
    (h : s <+: c :: cs) : s = [] ∨ ∃ s', s = c :: s' ∧ s' <+: cs := by
  cases s with
  | nil => exact Or.inl rfl
  | cons a s' =>
    obtain ⟨t, ht⟩ := h
    simp only [List.cons_append, List.cons.injEq] at ht
    exact Or.inr ⟨s', by rw [ht.1], ⟨t, ht.2⟩⟩

theorem append_cons_eq (l : List String) (a : String) (u : List String) :
    l ++ a :: u = (l ++ [a]) ++ u := by simp

theorem self_ne_append (l u : List String) (hu : u ≠ []) : l ≠ l ++ u := by
  intro h
  have hlen := congrArg List.length h
  rw [List.length_append] at hlen
  have : u.length = 0 := by omega
  exact hu (List.length_eq_zero.mp this)

/-- After mkdirAll, every nonempty chain prefix exists as a directory,
    provided no regular file previously blocked the chain. -/
theorem mkdirAllAux_creates (rest : List String) :
    ∀ (fs : FS) (done : Path),
      (∀ s : List String, s <+: rest → isFileOpt (FS.lookup fs (done ++ s)) = false) →
      ∀ s : List String, s <+: rest → s ≠ [] →
        FS.lookup (mkdirAllAux fs done rest) (done ++ s) = some Node.dir := by
  induction rest with
  | nil =>
    intro fs done _ s hs hne
    obtain ⟨t, ht⟩ := hs
    exact absurd (List.append_eq_nil.mp ht).1 hne
  | cons c cs ih =>
    intro fs done hfree s hs hne
    rcases prefix_cons_elim hs with rfl | ⟨s', rfl, hs'⟩
    · exact absurd rfl hne
    · simp only [mkdirAllAux]
      rcases hl : FS.lookup fs (done ++ [c]) with _ | nd
      · rcases eq_or_ne s' [] with rfl | hne'
        · have hself : FS.lookup (FS.insert fs (done ++ [c]) Node.dir) (done ++ [c]) =
              some Node.dir := FS.lookup_insert_self _ _ _
          exact mkdirAllAux_preserves cs (FS.insert fs (done ++ [c]) Node.dir)
            (done ++ [c]) (done ++ [c]) Node.dir hself
        · have hfree' : ∀ u : List String, u <+: cs →
              isFileOpt (FS.lookup (FS.insert fs (done ++ [c]) Node.dir)
                ((done ++ [c]) ++ u)) = false := by
            intro u hu
            rcases eq_or_ne u [] with rfl | hu0
            · rw [List.append_nil, FS.lookup_insert_self]; rfl
            · rw [FS.lookup_insert_ne _ _ _ _ (self_ne_append _ u hu0)]
              have hcu : (c :: u) <+: (c :: cs) := by
                obtain ⟨t, ht⟩ := hu
                exact ⟨t, by simp [ht]⟩
              have := hfree (c :: u) hcu
              rwa [append_cons_eq] at this
          have hp : done ++ c :: s' = (done ++ [c]) ++ s' := by simp
          rw [hp]
          exact ih (FS.insert fs (done ++ [c]) Node.dir) (done ++ [c]) hfree' s' hs' hne'
      · cases nd with
        | file co m =>
          have := hfree [c] ⟨cs, rfl⟩
          rw [hl] at this
          simp [isFileOpt] at this
        | dir =>
          rcases eq_or_ne s' [] with rfl | hne'
          · exact mkdirAllAux_preserves cs fs (done ++ [c]) (done ++ [c]) Node.dir hl
          · have hfree' : ∀ u : List String, u <+: cs →
                isFileOpt (FS.lookup fs ((done ++ [c]) ++ u)) = false := by
              intro u hu
              have hcu : (c :: u) <+: (c :: cs) := by
                obtain ⟨t, ht⟩ := hu
                exact ⟨t, by simp [ht]⟩
              have := hfree (c :: u) hcu
              rwa [append_cons_eq] at this
            have hp : done ++ c :: s' = (done ++ [c]) ++ s' := by simp
            rw [hp]
            exact ih fs (done ++ [c]) hfree' s' hs' hne'

theorem mkdirAll_creates (fs : FS) (p : Path)
    (hfree : ∀ q : Path, q <+: p → isFileOpt (FS.lookup fs q) = false) (hne : p ≠ []) :
    FS.lookup (mkdirAll fs p) p = some Node.dir := by
  have := mkdirAllAux_creates p fs []
    (fun s hs => by simpa using hfree s hs) p (List.prefix_rfl) hne
  simpa using this

/-- mkdirAll changes only nonempty extensions of its base along the chain. -/
theorem mkdirAllAux_untouched (rest : List String) :
    ∀ (fs : FS) (done q : Path),
      (∀ s : List String, s <+: rest → s ≠ [] → q ≠ done ++ s) →
      FS.lookup (mkdirAllAux fs done rest) q = FS.lookup fs q := by
  induction rest with
  | nil => intro fs done q _; rfl
  | cons c cs ih =>
    intro fs done q hq
    have hqc : q ≠ done ++ [c] := hq [c] ⟨cs, rfl⟩ (by simp)
    have hrec : ∀ s : List String, s <+: cs → s ≠ [] → q ≠ (done ++ [c]) ++ s := by
      intro s hs hs0
      have hcs : (c :: s) <+: (c :: cs) := by
        obtain ⟨t, ht⟩ := hs
        exact ⟨t, by simp [ht]⟩
      have := hq (c :: s) hcs (by simp)
      rwa [append_cons_eq] at this
    simp only [mkdirAllAux]
    rcases hl : FS.lookup fs (done ++ [c]) with _ | nd
    · rw [ih _ _ _ hrec, FS.lookup_insert_ne _ _ _ _ (Ne.symm hqc)]
    · cases nd with
      | file co m => rfl
      | dir => exact ih fs (done ++ [c]) q hrec

theorem mkdirAll_untouched (fs : FS) (p q : Path)
    (h : ¬ (q <+: p) ∨ q = []) :
    FS.lookup (mkdirAll fs p) q = FS.lookup fs q := by
  apply mkdirAllAux_untouched
  intro s hs hs0 hqe
  rcases h with h | h
  · exact h (by simpa [hqe] using hs)
  · simp [h] at hqe
    exact hs0 hqe

/-- mkdirAll is idempotent. -/
theorem mkdirAllAux_idem (rest : List String) :
    ∀ (fs : FS) (done : Path),
      mkdirAllAux (mkdirAllAux fs done rest) done rest = mkdirAllAux fs done rest := by
  induction rest with
  | nil => intro fs done; rfl
  | cons c cs ih =>
    intro fs done
    rcases hl : FS.lookup fs (done ++ [c]) with _ | nd
    · simp only [mkdirAllAux, hl]
      have h1 : FS.lookup (mkdirAllAux (FS.insert fs (done ++ [c]) Node.dir)
          (done ++ [c]) cs) (done ++ [c]) = some Node.dir :=
        mkdirAllAux_preserves cs _ _ _ _ (FS.lookup_insert_self _ _ _)
      rw [h1]
      exact ih _ _
    · cases nd with
      | file co m => simp only [mkdirAllAux, hl]
      | dir =>
        simp only [mkdirAllAux, hl]
        have h1 : FS.lookup (mkdirAllAux fs (done ++ [c]) cs) (done ++ [c]) =
            some Node.dir := mkdirAllAux_preserves cs _ _ _ _ hl
        rw [h1]
        exact ih _ _

theorem mkdirAll_idem (fs : FS) (p : Path) :
    mkdirAll (mkdirAll fs p) p = mkdirAll fs p :=
  mkdirAllAux_idem p fs []

/- ### Inversion lemmas for the OS primitives -/

theorem createFile_ok {w w' : World} {p : Path} (h : createFile w p = .ok w') :
    p ∉ w.createFails ∧ isDirOpt (FS.lookup w.fs p) = false ∧ parentOk w.fs p = true ∧
    w' = { w with fs := FS.insert w.fs p (Node.file [] createMode) } := by
  by_cases h1 : p ∈ w.createFails
  · simp [createFile, h1] at h
  · by_cases h2 : isDirOpt (FS.lookup w.fs p) = true
    · simp [createFile, h1, h2] at h
    · by_cases h3 : parentOk w.fs p = true
      · have hcopy := h
        simp [createFile, h1, h2, h3] at hcopy
        exact ⟨h1, by simpa using h2, h3, hcopy.symm⟩
      · simp [createFile, h1, h2, h3] at h

theorem writeFile_ok {w w' : World} {p : Path} {c : List Nat}
    (h : writeFile w p c = .ok w') :
    p ∉ w.writeFails ∧ ∃ c0 m, FS.lookup w.fs p = some (Node.file c0 m) ∧
      w' = { w with fs := FS.insert w.fs p (Node.file c m) } := by
  by_cases h1 : p ∈ w.writeFails
  · simp [writeFile, h1] at h
  · rcases hl : FS.lookup w.fs p with _ | nd
    · simp [writeFile, h1, hl] at h
    · cases nd with
      | file c0 m =>
        have hcopy := h
        simp [writeFile, h1, hl] at hcopy
        exact ⟨h1, c0, m, rfl, hcopy.symm⟩
      | dir => simp [writeFile, h1, hl] at h

theorem chmod_of_file {w : World} {p : Path} {c0 : List Nat} {m0 m : Nat}
    (hl : FS.lookup w.fs p = some (Node.file c0 m0)) (hn : p ∉ w.chmodFails) :
    chmod w p m = .ok { w with fs := FS.insert w.fs p (Node.file c0 m) } := by
  unfold chmod
  rw [if_neg hn, hl]

theorem chmod_ok_cases {w w' : World} {p : Path} {m : Nat}
    (h : chmod w p m = .ok w') :
    p ∉ w.chmodFails ∧
    ((∃ c0 m0, FS.lookup w.fs p = some (Node.file c0 m0) ∧
        w' = { w with fs := FS.insert w.fs p (Node.file c0 m) })
      ∨ (FS.lookup w.fs p = some Node.dir ∧ w' = w)) := by
  by_cases h1 : p ∈ w.chmodFails
  · simp [chmod, h1] at h
  · rcases hl : FS.lookup w.fs p with _ | nd
    · simp [chmod, h1, hl] at h
    · cases nd with
      | file c0 m0 =>
        have hcopy := h
        simp [chmod, h1, hl] at hcopy
        exact ⟨h1, Or.inl ⟨c0, m0, rfl, hcopy.symm⟩⟩
      | dir =>
        have hcopy := h
        simp [chmod, h1, hl] at hcopy
        exact ⟨h1, Or.inr ⟨rfl, hcopy.symm⟩⟩

/- ### untar step inversion -/

/-- What one successful tar step (launcher variant) does. -/
theorem untarStep_ok {dest : Path} {w : World} {last : Path} {e : Entry}
    {w1 : World} {l1 : Path}
    (h : untarStep dest w last e = .ok (w1, l1)) :
    (e.kind = .dir ∧ w1 = { w with fs := mkdirAll w.fs (dest ++ e.path) } ∧ l1 = last)
    ∨ (e.kind = .file ∧ l1 = dest ++ e.path ∧
        w1.createFails = w.createFails ∧ w1.writeFails = w.writeFails ∧
        w1.chmodFails = w.chmodFails ∧ w1.renameFails = w.renameFails ∧
        (∀ q, q ≠ dest ++ e.path →
          FS.lookup w1.fs q = FS.lookup (mkdirAll w.fs (dest ++ e.path).dropLast) q) ∧
        (∃ m, FS.lookup w1.fs (dest ++ e.path) = some (Node.file e.content m) ∧
          (w.chmodFails = [] → m = execMode))) := by
  cases hk : e.kind with
  | dir =>
    rw [untarStep, hk] at h
    simp only [Except.ok.injEq, Prod.mk.injEq] at h
    exact Or.inl ⟨rfl, h.1.symm, h.2.symm⟩
  | file =>
    rw [untarStep, hk] at h
    dsimp only at h
    rcases hc : createFile { w with fs := mkdirAll w.fs (dest ++ e.path).dropLast }
        (dest ++ e.path) with u | w2
    · rw [hc] at h; simp at h
    · rw [hc] at h
      dsimp only at h
      rcases hw : writeFile w2 (dest ++ e.path) e.content with u | w3
      · rw [hw] at h; simp at h
      · rw [hw] at h
        dsimp only at h
        obtain ⟨hc1, hc2, hc3, hc4⟩ := createFile_ok hc
        obtain ⟨hw1, c0, m0, hwl, hw2⟩ := writeFile_ok hw
        have hw3self : FS.lookup w3.fs (dest ++ e.path) =
            some (Node.file e.content m0) := by
          rw [hw2]; exact FS.lookup_insert_self _ _ _
        have hw3ne : ∀ q, q ≠ dest ++ e.path →
            FS.lookup w3.fs q = FS.lookup (mkdirAll w.fs (dest ++ e.path).dropLast) q := by
          intro q hq
          rw [hw2]
          show FS.lookup (FS.insert w2.fs (dest ++ e.path) (Node.file e.content m0)) q = _
          rw [FS.lookup_insert_ne _ _ _ _ (fun hh => hq hh.symm), hc4]
          show FS.lookup (FS.insert (mkdirAll w.fs (dest ++ e.path).dropLast)
            (dest ++ e.path) (Node.file [] createMode)) q = _
          rw [FS.lookup_insert_ne _ _ _ _ (fun hh => hq hh.symm)]
        have hfields : w3.createFails = w.createFails ∧ w3.writeFails = w.writeFails ∧
            w3.chmodFails = w.chmodFails ∧ w3.renameFails = w.renameFails := by
          rw [hw2, hc4]; exact ⟨rfl, rfl, rfl, rfl⟩
        rcases hch : chmod w3 (dest ++ e.path) execMode with u | w4
        · rw [hch] at h
          simp only [Except.ok.injEq, Prod.mk.injEq] at h
          obtain ⟨hw1', hl1⟩ := h
          subst hw1'
          refine Or.inr ⟨rfl, hl1.symm, hfields.1, hfields.2.1, hfields.2.2.1,
            hfields.2.2.2, hw3ne, m0, hw3self, ?_⟩
          intro hnil
          have hnm : (dest ++ e.path) ∉ w3.chmodFails := by
            rw [hfields.2.2.1, hnil]; simp
          have hok := @chmod_of_file w3 (dest ++ e.path) e.content m0 execMode hw3self hnm
          rw [hch] at hok
          exact absurd hok (by simp)
        · rw [hch] at h
          simp only [Except.ok.injEq, Prod.mk.injEq] at h
          obtain ⟨hw1', hl1⟩ := h
          subst hw1'
          obtain ⟨hch1, hch2⟩ := chmod_ok_cases hch
          rcases hch2 with ⟨c1, m1, hcl, hw4⟩ | ⟨hcl, hw4⟩
          · rw [hw3self] at hcl
            injection hcl with hcl
            injection hcl with hcl1 hcl2
            refine Or.inr ⟨rfl, hl1.symm, ?_, ?_, ?_, ?_, ?_, execMode, ?_, fun _ => rfl⟩
            · rw [hw4]; exact hfields.1
            · rw [hw4]; exact hfields.2.1
            · rw [hw4]; exact hfields.2.2.1
            · rw [hw4]; exact hfields.2.2.2
            · intro q hq
              rw [hw4]
              show FS.lookup (FS.insert w3.fs (dest ++ e.path) (Node.file c1 execMode)) q = _
              rw [FS.lookup_insert_ne _ _ _ _ (fun hh => hq hh.symm)]
              exact hw3ne q hq
            · rw [hw4, ← hcl1]
              exact FS.lookup_insert_self _ _ _
          · rw [hw3self] at hcl
            exact absurd hcl (by simp)

/- ### untar loop lemmas -/

/-- A "file with mode 0755" fact survives the rest of a successful tar
    extraction: steps at other paths do not touch it, and a step at the
    same path re-establishes it (chmod failures being excluded). -/
theorem untarLoop_pres_exec (dest : Path) :
    ∀ (es : List Entry) (w : World) (last : Path) (w' : World) (p q : Path),
      untarLoop dest w last es = .ok (w', p) →
      w.chmodFails = [] →
      (∃ c, FS.lookup w.fs q = some (Node.file c execMode)) →
      ∃ c, FS.lookup w'.fs q = some (Node.file c execMode) := by
  intro es
  induction es with
  | nil =>
    intro w last w' p q h hch hx
    simp only [untarLoop, Except.ok.injEq, Prod.mk.injEq] at h
    rw [← h.1]
    exact hx
  | cons e rest ih =>
    intro w last w' p q h hch hx
    simp only [untarLoop] at h
    rcases hs : untarStep dest w last e with u | acc
    · rw [hs] at h; simp at h
    · rw [hs] at h
      dsimp only at h
      obtain ⟨w1, l1⟩ := acc
      rcases untarStep_ok hs with ⟨hkd, hw1, hl1⟩ |
        ⟨hkf, hl1, hcf, hwf, hchf, hrf, hne, m, hself, hm⟩
      · refine ih w1 l1 w' p q h ?_ ?_
        · rw [hw1]; exact hch
        · obtain ⟨c, hc⟩ := hx
          exact ⟨c, by rw [hw1]; exact mkdirAll_preserves _ _ _ _ hc⟩
      · refine ih w1 l1 w' p q h ?_ ?_
        · rw [hchf]; exact hch
        · by_cases hq : q = dest ++ e.path
          · subst hq
            rw [hm hch] at hself
            exact ⟨e.content, hself⟩
          · obtain ⟨c, hc⟩ := hx
            refine ⟨c, ?_⟩
            rw [hne q hq]
            exact mkdirAll_preserves _ _ _ _ hc

/-- Every file entry of a successful tar extraction (launcher variant)
    ends with mode 0755 at its destination path. -/
theorem untarLoop_all_exec (dest : Path) :
    ∀ (es : List Entry) (w : World) (last : Path) (w' : World) (p : Path),
      untarLoop dest w last es = .ok (w', p) →
      w.chmodFails = [] →
      ∀ e ∈ es, e.kind = .file →
        ∃ c, FS.lookup w'.fs (dest ++ e.path) = some (Node.file c execMode) := by
  intro es
  induction es with
  | nil => intro w last w' p _ _ e he; cases he
  | cons e0 rest ih =>
    intro w last w' p h hch e he hk
    simp only [untarLoop] at h
    rcases hs : untarStep dest w last e0 with u | acc
    · rw [hs] at h; simp at h
    · rw [hs] at h
      dsimp only at h
      obtain ⟨w1, l1⟩ := acc
      have hch1 : w1.chmodFails = [] := by
        rcases untarStep_ok hs with ⟨_, hw1, _⟩ | ⟨_, _, _, _, hchf, _, _, _⟩
        · rw [hw1]; exact hch
        · rw [hchf]; exact hch
      rcases List.mem_cons.mp he with heq | hmem
      · subst heq
        rcases untarStep_ok hs with ⟨hkd, _, _⟩ |
          ⟨_, _, _, _, _, _, _, m, hself, hm⟩
        · rw [hk] at hkd; cases hkd
        · refine untarLoop_pres_exec dest rest w1 l1 w' p (dest ++ e.path) h hch1 ?_
          rw [hm hch] at hself
          exact ⟨e.content, hself⟩
      · exact ih w1 l1 w' p h hch1 e hmem hk

/-- C2 (amended): for the `untarGzTo` of xmlui-launcher.go (and the
    equivalent part_000/part_003/part_004 variants), after a successful
    extraction every file entry's destination holds a regular file whose
    permission bits are 0755, independent of the mode recorded in the TAR
    header (the `mode` field of `Entry` is never consulted); the part_002
    variant, also cited by the claim, does NOT chmod extracted files. -/
theorem untarGzTo_all_executable (es : List Entry) (dest : Path) (w : World)
    (w' : World) (p : Path)
    (hok : untarGzTo (.ok es) dest w = .ok (w', p))
    (hch : w.chmodFails = []) :
    ∀ e ∈ es, e.kind = .file →
      ∃ c, FS.lookup w'.fs (dest ++ e.path) = some (Node.file c execMode) :=
  untarLoop_all_exec dest es w [] w' p hok hch

/-- C2 counterexample: extracting with part_002's `untarGzTo` succeeds but
    leaves the extracted file with the creation mode 0o666, not 0o755,
    even though its TAR header records mode 0o777 — so the claim's "every
    extracted file has permission bits rwxr-xr-x" is false for that cited
    variant. -/
theorem untarPart2_mode_counterexample :
    (match untarGzToPart2 (.ok [tarEntry777]) ["d"] emptyWorld with
      | .ok (wr, _) => FS.lookup wr.fs ["d", "f"] = some (Node.file [1] createMode)
      | .error _ => False)
    ∧ tarEntry777.mode = 511 ∧ createMode ≠ execMode := by
  exact ⟨rfl, rfl, by decide⟩

/-- C2 witness: in a concrete successful extraction the first entry's
    destination file carries mode 0755. -/
theorem untarGzTo_all_executable_witness :
    ∃ c, FS.lookup tarWitnessWorld.fs (["d"] ++ tarA.path) = some (Node.file c execMode) :=
  untarGzTo_all_executable [tarA, tarB2] ["d"] emptyWorld tarWitnessWorld ["d", "b"]
    (by rfl) (by rfl) tarA (List.mem_cons_self _ _) (by rfl)

theorem untarLoop_last (dest : Path) :
    ∀ (es : List Entry) (w : World) (last : Path) (w' : World) (p : Path),
      untarLoop dest w last es = .ok (w', p) →
      ((∀ x, lastFileEntry es = some x → p = dest ++ x.path)
        ∧ (lastFileEntry es = none → p = last)) := by
  intro es
  induction es with
  | nil =>
    intro w last w' p h
    simp only [untarLoop, Except.ok.injEq, Prod.mk.injEq] at h
    refine ⟨fun x hx => ?_, fun _ => h.2.symm⟩
    simp [lastFileEntry] at hx
  | cons e rest ih =>
    intro w last w' p h
    simp only [untarLoop] at h
    rcases hs : untarStep dest w last e with u | acc
    · rw [hs] at h; simp at h
    · rw [hs] at h
      dsimp only at h
      obtain ⟨w1, l1⟩ := acc
      have hl1 : (e.kind = EntryKind.dir ∧ l1 = last)
          ∨ (e.kind = EntryKind.file ∧ l1 = dest ++ e.path) := by
        rcases untarStep_ok hs with ⟨h1, _, h2⟩ | ⟨h1, h2, _⟩
        · exact Or.inl ⟨h1, h2⟩
        · exact Or.inr ⟨h1, h2⟩
      have ihh := ih w1 l1 w' p h
      constructor
      · intro x hx
        simp only [lastFileEntry] at hx
        rcases hrest : lastFileEntry rest with _ | y
        · rw [hrest] at hx
          by_cases hk : e.kind = EntryKind.file
          · rw [if_pos hk] at hx
            injection hx with hx
            subst hx
            have hp := ihh.2 hrest
            rcases hl1 with ⟨hkd, _⟩ | ⟨_, h1⟩
            · rw [hk] at hkd; cases hkd
            · rw [hp, h1]
          · rw [if_neg hk] at hx; cases hx
        · rw [hrest] at hx
          injection hx with hx
          subst hx
          exact ihh.1 y hrest
      · intro hnone
        simp only [lastFileEntry] at hnone
        rcases hrest : lastFileEntry rest with _ | y
        · rw [hrest] at hnone
          by_cases hk : e.kind = EntryKind.file
          · rw [if_pos hk] at hnone; cases hnone
          · have hp := ihh.2 hrest
            rcases hl1 with ⟨_, h1⟩ | ⟨hkf, _⟩
            · rw [hp, h1]
            · exact absurd hkf hk
        · rw [hrest] at hnone; cases hnone

/-- C6: on a successful run, `untarGzTo` returns the destination path of
    the last file entry encountered in archive order (whenever the archive
    has at least one file entry), independent of any entry's name. -/
theorem untarGzTo_returns_last_file (es : List Entry) (dest : Path) (w : World)
    (w' : World) (p : Path) (e : Entry)
    (hok : untarGzTo (.ok es) dest w = .ok (w', p))
    (hlast : lastFileEntry es = some e) :
    p = dest ++ e.path :=
  (untarLoop_last dest es w [] w' p hok).1 e hlast

/-- C6 witness: extracting `[tarA, tarB2]` returns the path of `tarB2`,
    the second and last file entry. -/
theorem untarGzTo_returns_last_file_witness :
    ["d", "b"] = ["d"] ++ tarB2.path :=
  untarGzTo_returns_last_file [tarA, tarB2] ["d"] emptyWorld tarWitnessWorld
    ["d", "b"] tarB2 (by rfl) (by rfl)

/- ### rename lemmas -/

theorem movePath_self (src dst : Path) : movePath src dst src = dst := by
  simp [movePath, List.isPrefixOf_iff_prefix]

/-- After a rename, nothing is left at the source path (provided the
    destination is not a prefix of the source). -/
theorem renameFS_lookup_src (fs : FS) (src dst : Path) (hnd : ¬ dst <+: src) :
    FS.lookup (renameFS fs src dst) src = none := by
  induction fs with
  | nil => rfl
  | cons e fs ih =>
    by_cases hdst : e.1 = dst
    · simpa [renameFS, List.filter_cons, hdst] using ih
    · have hstep : renameFS (e :: fs) src dst =
          (movePath src dst e.1, e.2) :: renameFS fs src dst := by
        simp [renameFS, List.filter_cons, hdst]
      rw [hstep]
      show (if movePath src dst e.1 = src then some e.2 else _) = none
      rw [if_neg ?_, ih]
      intro hmov
      by_cases hpre : src <+: e.1
      · rw [movePath, if_pos (List.isPrefixOf_iff_prefix.mpr hpre)] at hmov
        exact hnd ⟨e.1.drop src.length, hmov⟩
      · rw [movePath, if_neg (fun hb => hpre (List.isPrefixOf_iff_prefix.mp hb))] at hmov
        exact hpre (hmov ▸ List.prefix_refl src)

/-- After a rename, the destination holds what the source held. -/
theorem renameFS_lookup_dst (fs : FS) (src dst : Path) (hnd : ¬ dst <+: src) :
    FS.lookup (renameFS fs src dst) dst = FS.lookup fs src := by
  have hne : src ≠ dst := fun h => hnd (h ▸ List.prefix_refl dst)
  induction fs with
  | nil => rfl
  | cons e fs ih =>
    by_cases hdst : e.1 = dst
    · have hstep : renameFS (e :: fs) src dst = renameFS fs src dst := by
        simp [renameFS, List.filter_cons, hdst]
      rw [hstep, ih]
      show _ = FS.lookup (e :: fs) src
      rw [show FS.lookup (e :: fs) src = FS.lookup fs src from by
        show (if e.1 = src then some e.2 else FS.lookup fs src) = _
        rw [if_neg (by rw [hdst]; exact fun h => hne h.symm)]]
    · have hstep : renameFS (e :: fs) src dst =
          (movePath src dst e.1, e.2) :: renameFS fs src dst := by
        simp [renameFS, List.filter_cons, hdst]
      rw [hstep]
      by_cases hsrc : e.1 = src
      · show (if movePath src dst e.1 = dst then some e.2 else _) = _
        rw [if_pos (by rw [hsrc, movePath_self]),
          show FS.lookup (e :: fs) src = some e.2 from by
            show (if e.1 = src then some e.2 else _) = _
            rw [if_pos hsrc]]
      · show (if movePath src dst e.1 = dst then some e.2 else _) = _
        rw [if_neg ?_, ih,
          show FS.lookup (e :: fs) src = FS.lookup fs src from by
            show (if e.1 = src then some e.2 else _) = _
            rw [if_neg hsrc]]
        intro hmov
        by_cases hpre : src <+: e.1
        · rw [movePath, if_pos (List.isPrefixOf_iff_prefix.mpr hpre)] at hmov
          obtain ⟨t, ht⟩ := hpre
          have htne : e.1.drop src.length ≠ [] := by
            intro h0
            apply hsrc
            rw [← ht, List.drop_left] at h0
            rw [← ht, h0, List.append_nil]
          exact (self_ne_append dst (e.1.drop src.length) htne) hmov.symm
        · rw [movePath, if_neg (fun hb => hpre (List.isPrefixOf_iff_prefix.mp hb))] at hmov
          exact hdst hmov

theorem rename_ok {w w' : World} {src dst : Path} (h : rename w src dst = .ok w') :
    src ∉ w.renameFails ∧ (∃ n, FS.lookup w.fs src = some n) ∧
    isDirOpt (FS.lookup w.fs dst) = false ∧ parentOk w.fs dst = true ∧
    w' = { w with fs := renameFS w.fs src dst } := by
  by_cases h1 : src ∈ w.renameFails
  · simp [rename, h1] at h
  · rcases hl : FS.lookup w.fs src with _ | n
    · simp [rename, h1, hl] at h
    · by_cases h2 : isDirOpt (FS.lookup w.fs dst) = true
      · simp [rename, h1, hl, h2] at h
      · by_cases h3 : parentOk w.fs dst = true
        · have hcopy := h
          simp [rename, h1, hl, h2, h3] at hcopy
          exact ⟨h1, ⟨n, rfl⟩, by simpa using h2, h3, hcopy.symm⟩
        · simp [rename, h1, hl, h2, h3] at h

/- ### moveIntoPlace -/

theorem moveLoop_spec (w : World) (srcParent : Path) (repoName : String)
    (installDir : Path) :
    ∀ names : List String,
      ((names.filter (fun n => hasPrefixStr n (repoName ++ "-"))) = [] →
        moveLoop w srcParent repoName installDir names = .error ())
      ∧ (∀ n, (names.filter (fun n => hasPrefixStr n (repoName ++ "-"))).head? = some n →
          moveLoop w srcParent repoName installDir names =
            (match rename w (srcParent ++ [n]) (installDir ++ [repoName]) with
              | .error _ => .error ()
              | .ok w' => .ok (installDir ++ [repoName], w'))) := by
  intro names
  induction names with
  | nil => exact ⟨fun _ => rfl, fun n h => by simp at h⟩
  | cons m rest ih =>
    constructor
    · intro hf
      rw [List.filter_cons] at hf
      by_cases hm : hasPrefixStr m (repoName ++ "-") = true
      · rw [if_pos hm] at hf; cases hf
      · rw [if_neg hm] at hf
        simp only [moveLoop]
        rw [if_neg hm]
        exact ih.1 hf
    · intro n hn
      rw [List.filter_cons] at hn
      by_cases hm : hasPrefixStr m (repoName ++ "-") = true
      · rw [if_pos hm] at hn
        simp only [List.head?_cons, Option.some.injEq] at hn
        subst hn
        simp only [moveLoop]
        rw [if_pos hm]
      · rw [if_neg hm] at hn
        simp only [moveLoop]
        rw [if_neg hm]
        exact ih.2 n hn

/-- C7: `moveIntoPlace` scans the (sorted) directory listing of
    `srcParent`: with no entry matching the prefix `repoName ++ "-"` it
    reports the "not found" error; otherwise it renames the FIRST matching
    entry in directory-listing order to `installDir/repoName` and returns
    that path — when that rename succeeds, the source name is gone and the
    destination holds what the source held (in particular the
    exactly-one-match case of the claim). -/
theorem moveIntoPlace_spec (w : World) (srcParent : Path) (repoName : String)
    (installDir : Path) :
    ((readDirNames w.fs srcParent).filter
        (fun n => hasPrefixStr n (repoName ++ "-")) = [] →
      moveIntoPlace w srcParent repoName installDir = .error ())
    ∧ (∀ n w',
        ((readDirNames w.fs srcParent).filter
          (fun n => hasPrefixStr n (repoName ++ "-"))).head? = some n →
        rename w (srcParent ++ [n]) (installDir ++ [repoName]) = .ok w' →
        moveIntoPlace w srcParent repoName installDir = .ok (installDir ++ [repoName], w')
        ∧ (¬ (installDir ++ [repoName]) <+: (srcParent ++ [n]) →
            FS.lookup w'.fs (srcParent ++ [n]) = none
            ∧ FS.lookup w'.fs (installDir ++ [repoName]) =
                FS.lookup w.fs (srcParent ++ [n]))) := by
  constructor
  · intro hf
    exact (moveLoop_spec w srcParent repoName installDir
      (readDirNames w.fs srcParent)).1 hf
  · intro n w' hn hr
    have h2 := (moveLoop_spec w srcParent repoName installDir
      (readDirNames w.fs srcParent)).2 n hn
    constructor
    · rw [hr] at h2
      exact h2.trans rfl
    · intro hnd
      obtain ⟨_, _, _, _, hw'⟩ := rename_ok hr
      rw [hw']
      exact ⟨renameFS_lookup_src w.fs _ _ hnd, renameFS_lookup_dst w.fs _ _ hnd⟩

/-- C7 witness: with exactly one matching child `foo-bar` and baseName
    `foo`, the child is renamed to `r/foo`, that path is returned, and the
    source name is gone. -/
theorem moveIntoPlace_spec_witness :
    moveIntoPlace moveWorld ["r"] "foo" ["r"] = .ok (["r", "foo"], movedWorld)
    ∧ FS.lookup movedWorld.fs ["r", "foo-bar"] = none :=
  have h := (moveIntoPlace_spec moveWorld ["r"] "foo" ["r"]).2 "foo-bar" movedWorld
    (by rfl) (by rfl)
  ⟨h.1, (h.2 (by decide)).1⟩

/- ### relocateIntoSlot -/

/-- C9: running the MCP organizing step with a source that does not exist
    is non-fatal — the rename error is swallowed, the run continues — and
    leaves the slot directory created: the result is exactly the input
    world with `mkdirAll slotDir` applied, the slot directory exists as a
    directory afterwards, and re-running the operation changes nothing
    (idempotent creation). -/
theorem relocateIntoSlot_missing_source (goos : String) (w : World)
    (srcParent slotDir : Path) (name : String)
    (hmiss : FS.lookup w.fs (srcParent ++ [name]) = none)
    (hnp : ¬ (srcParent ++ [name]) <+: slotDir)
    (hfree : ∀ q : Path, q <+: slotDir → isFileOpt (FS.lookup w.fs q) = false)
    (hne : slotDir ≠ []) :
    relocateIntoSlot goos w srcParent slotDir name = { w with fs := mkdirAll w.fs slotDir }
    ∧ FS.lookup (mkdirAll w.fs slotDir) slotDir = some Node.dir
    ∧ relocateIntoSlot goos (relocateIntoSlot goos w srcParent slotDir name)
        srcParent slotDir name
      = relocateIntoSlot goos w srcParent slotDir name := by
  have hidem : mkdirAll (mkdirAll w.fs slotDir) slotDir = mkdirAll w.fs slotDir :=
    mkdirAll_idem _ _
  have runEq : ∀ w0 : World,
      rename { w0 with fs := mkdirAll w0.fs slotDir } (srcParent ++ [name])
        (slotDir ++ [name]) = .error () →
      relocateIntoSlot goos w0 srcParent slotDir name =
        { w0 with fs := mkdirAll w0.fs slotDir } := by
    intro w0 hf
    unfold relocateIntoSlot
    dsimp only
    rw [hf]
  have hmiss1 : FS.lookup (mkdirAll w.fs slotDir) (srcParent ++ [name]) = none := by
    rw [mkdirAll_untouched _ _ _ (Or.inl hnp)]
    exact hmiss
  have hrfail : rename { w with fs := mkdirAll w.fs slotDir } (srcParent ++ [name])
      (slotDir ++ [name]) = .error () := by
    unfold rename
    by_cases h1 : (srcParent ++ [name]) ∈
        ({ w with fs := mkdirAll w.fs slotDir } : World).renameFails
    · rw [if_pos h1]
    · rw [if_neg h1]
      show (match FS.lookup (mkdirAll w.fs slotDir) (srcParent ++ [name]) with
        | none => Except.error ()
        | some _ => _) = Except.error ()
      rw [hmiss1]
  have hmain : relocateIntoSlot goos w srcParent slotDir name =
      { w with fs := mkdirAll w.fs slotDir } := runEq w hrfail
  refine ⟨hmain, mkdirAll_creates w.fs slotDir hfree hne, ?_⟩
  rw [hmain]
  have hrfail2 : rename { ({ w with fs := mkdirAll w.fs slotDir } : World) with
      fs := mkdirAll ({ w with fs := mkdirAll w.fs slotDir } : World).fs slotDir }
      (srcParent ++ [name]) (slotDir ++ [name]) = .error () := by
    have hx : ({ ({ w with fs := mkdirAll w.fs slotDir } : World) with
        fs := mkdirAll ({ w with fs := mkdirAll w.fs slotDir } : World).fs slotDir } : World)
        = { w with fs := mkdirAll w.fs slotDir } := by
      exact congrArg (fun v => ({ w with fs := v } : World)) hidem
    rw [hx]
    exact hrfail
  have h2 := runEq { w with fs := mkdirAll w.fs slotDir } hrfail2
  rw [h2]
  exact congrArg (fun v => ({ w with fs := v } : World)) hidem

/-- C9 witness: relocating a missing `xmlui-mcp` into the `mcp` slot from
    an empty install directory is non-fatal and creates the slot. -/
theorem relocateIntoSlot_missing_source_witness :
    relocateIntoSlot "linux" emptyWorld ["tmpMCP"] ["mcp"] "xmlui-mcp"
      = { emptyWorld with fs := mkdirAll emptyWorld.fs ["mcp"] }
    ∧ FS.lookup (mkdirAll emptyWorld.fs ["mcp"]) ["mcp"] = some Node.dir :=
  have h := relocateIntoSlot_missing_source "linux" emptyWorld ["tmpMCP"] ["mcp"]
    "xmlui-mcp" rfl (by decide) (fun q _ => rfl) (by decide)
  ⟨h.1, h.2.1⟩

/- ### unzip step unfolding -/

theorem unzipStep_dir_eq (dest : Path) (w : World) (e : Entry) (hk : e.kind = .dir) :
    unzipStep dest w e = ({ w with fs := mkdirAll w.fs (dest ++ e.path) }, .ok ()) := by
  obtain ⟨p0, k0, c0, m0, o0⟩ := e
  cases hk
  rfl

theorem unzipStep_file_eq (dest : Path) (w : World) (e : Entry) (hk : e.kind = .file) :
    unzipStep dest w e =
      (if e.openOk then
        match createFile { w with fs := mkdirAll w.fs (dest ++ e.path).dropLast }
            (dest ++ e.path) with
        | .error _ => ({ w with fs := mkdirAll w.fs (dest ++ e.path).dropLast }, .error ())
        | .ok w2 =>
          match writeFile w2 (dest ++ e.path) e.content with
          | .error _ => (w2, .ok ())
          | .ok w3 => (w3, .ok ())
      else ({ w with fs := mkdirAll w.fs (dest ++ e.path).dropLast }, .error ())) := by
  obtain ⟨p0, k0, c0, m0, o0⟩ := e
  cases hk
  rfl

theorem wshape_refl (w : World) : WShapeEq w w :=
  ⟨fun _ => rfl, rfl, rfl, rfl, rfl, rfl⟩

theorem wshape_symm {a b : World} (h : WShapeEq a b) : WShapeEq b a :=
  ⟨fun p => (h.1 p).symm, h.2.1.symm, h.2.2.1.symm, h.2.2.2.1.symm,
   h.2.2.2.2.1.symm, h.2.2.2.2.2.symm⟩

theorem wshape_trans {a b c : World} (h1 : WShapeEq a b) (h2 : WShapeEq b c) :
    WShapeEq a c :=
  ⟨fun p => (h1.1 p).trans (h2.1 p), h1.2.1.trans h2.2.1, h1.2.2.1.trans h2.2.2.1,
   h1.2.2.2.1.trans h2.2.2.2.1, h1.2.2.2.2.1.trans h2.2.2.2.2.1,
   h1.2.2.2.2.2.trans h2.2.2.2.2.2⟩

theorem shape_opt_congr {o o' : Option Node}
    (h : o.map shapeNode = o'.map shapeNode) :
    isDirOpt o = isDirOpt o' ∧ isFileOpt o = isFileOpt o' := by
  rcases o with _ | n <;> rcases o' with _ | n'
  · exact ⟨rfl, rfl⟩
  · simp at h
  · simp at h
  · cases n with
    | file c m =>
      cases n' with
      | file c' m' => exact ⟨rfl, rfl⟩
      | dir => simp [shapeNode] at h
    | dir =>
      cases n' with
      | file c' m' => simp [shapeNode] at h
      | dir => exact ⟨rfl, rfl⟩

theorem FS.insert_shape {a b : FS} (h : FSShapeEq a b) (p : Path) {n n' : Node}
    (hn : shapeNode n = shapeNode n') :
    FSShapeEq (FS.insert a p n) (FS.insert b p n') := by
  intro q
  by_cases hq : p = q
  · subst hq
    rw [FS.lookup_insert_self, FS.lookup_insert_self]
    simp [hn]
  · rw [FS.lookup_insert_ne _ _ _ _ hq, FS.lookup_insert_ne _ _ _ _ hq]
    exact h q

theorem parentOk_shape {a b : FS} (h : FSShapeEq a b) (p : Path) :
    parentOk a p = parentOk b p := by
  unfold parentOk
  by_cases hd : p.dropLast = []
  · rw [if_pos hd, if_pos hd]
  · rw [if_neg hd, if_neg hd, (shape_opt_congr (h p.dropLast)).1]

theorem mkdirAllAux_shape (rest : List String) :
    ∀ (a b : FS) (done : Path), FSShapeEq a b →
      FSShapeEq (mkdirAllAux a done rest) (mkdirAllAux b done rest) := by
  induction rest with
  | nil => intro a b done h; exact h
  | cons c cs ih =>
    intro a b done h
    have hpc := h (done ++ [c])
    simp only [mkdirAllAux]
    rcases hla : FS.lookup a (done ++ [c]) with _ | na <;>
      rcases hlb : FS.lookup b (done ++ [c]) with _ | nb
    · exact ih _ _ _ (FS.insert_shape h (done ++ [c]) rfl)
    · rw [hla, hlb] at hpc; simp at hpc
    · rw [hla, hlb] at hpc; simp at hpc
    · rw [hla, hlb] at hpc
      cases na with
      | file ca ma =>
        cases nb with
        | file cb mb => exact h
        | dir => simp [shapeNode] at hpc
      | dir =>
        cases nb with
        | file cb mb => simp [shapeNode] at hpc
        | dir => exact ih a b (done ++ [c]) h

theorem mkdirAll_shape {a b : FS} (h : FSShapeEq a b) (p : Path) :
    FSShapeEq (mkdirAll a p) (mkdirAll b p) :=
  mkdirAllAux_shape p a b [] h

theorem createFile_shape {u u' : World} (p : Path) (h : WShapeEq u u') :
    (createFile u p = .error () ∧ createFile u' p = .error ())
    ∨ (∃ v v', createFile u p = .ok v ∧ createFile u' p = .ok v' ∧ WShapeEq v v') := by
  obtain ⟨hfs, hcf, hchm, hrf, hq, hx⟩ := h
  by_cases h1 : p ∈ u.createFails
  · have h1b : p ∈ u'.createFails := by rw [← hcf]; exact h1
    exact Or.inl ⟨by simp [createFile, h1], by simp [createFile, h1b]⟩
  · have h1b : p ∉ u'.createFails := by rw [← hcf]; exact h1
    have hdeq := (shape_opt_congr (hfs p)).1
    by_cases h2 : isDirOpt (FS.lookup u.fs p) = true
    · have h2b : isDirOpt (FS.lookup u'.fs p) = true := by rw [← hdeq]; exact h2
      exact Or.inl ⟨by simp [createFile, h1, h2], by simp [createFile, h1b, h2b]⟩
    · have h2b : ¬ isDirOpt (FS.lookup u'.fs p) = true := by rw [← hdeq]; exact h2
      have hpeq := parentOk_shape hfs p
      by_cases h3 : parentOk u.fs p = true
      · have h3b : parentOk u'.fs p = true := by rw [← hpeq]; exact h3
        refine Or.inr ⟨{ u with fs := FS.insert u.fs p (Node.file [] createMode) },
          { u' with fs := FS.insert u'.fs p (Node.file [] createMode) }, ?_, ?_, ?_⟩
        · unfold createFile
          rw [if_neg h1, if_neg h2, if_pos h3]
        · unfold createFile
          rw [if_neg h1b, if_neg h2b, if_pos h3b]
        · exact ⟨FS.insert_shape hfs p rfl, hcf, hchm, hrf, hq, hx⟩
      · have h3b : ¬ parentOk u'.fs p = true := by rw [← hpeq]; exact h3
        exact Or.inl ⟨by simp [createFile, h1, h2, h3], by simp [createFile, h1b, h2b, h3b]⟩

/-- Ignoring the result of `io.Copy` leaves a world of the same shape. -/
theorem writeIgnore_shape (v : World) (p : Path) (c : List Nat) :
    WShapeEq v (match writeFile v p c with | .ok x => x | .error _ => v) := by
  rcases hwv : writeFile v p c with u | x
  · exact wshape_refl v
  · obtain ⟨_, c0, m, hl, hx⟩ := writeFile_ok hwv
    refine ⟨?_, by rw [hx], by rw [hx], by rw [hx], by rw [hx], by rw [hx]⟩
    intro q
    by_cases hq : p = q
    · subst hq
      rw [hx]
      show _ = Option.map shapeNode (FS.lookup (FS.insert v.fs p (Node.file c m)) p)
      rw [FS.lookup_insert_self, hl]
      rfl
    · rw [hx]
      show _ = Option.map shapeNode (FS.lookup (FS.insert v.fs p (Node.file c m)) q)
      rw [FS.lookup_insert_ne _ _ _ _ hq]

theorem unzipWrite_eq (v : World) (p : Path) (c : List Nat) :
    (match writeFile v p c with
      | .error _ => ((v, .ok ()) : World × Except Unit Unit)
      | .ok w3 => (w3, .ok ())) =
    ((match writeFile v p c with | .ok x => x | .error _ => v), .ok ()) := by
  rcases writeFile v p c with u | x <;> rfl

/-- One unzip step has the same success/failure status on shape-equal
    worlds, and produces shape-equal worlds. -/
theorem unzipStep_shape (dest : Path) (e : Entry) {w w' : World} (h : WShapeEq w w') :
    (unzipStep dest w e).2 = (unzipStep dest w' e).2
    ∧ WShapeEq (unzipStep dest w e).1 (unzipStep dest w' e).1 := by
  obtain ⟨hfs, hcf, hchm, hrf, hq, hx⟩ := h
  have hw1 : WShapeEq { w with fs := mkdirAll w.fs (dest ++ e.path).dropLast }
      { w' with fs := mkdirAll w'.fs (dest ++ e.path).dropLast } :=
    ⟨mkdirAll_shape hfs _, hcf, hchm, hrf, hq, hx⟩
  cases hk : e.kind with
  | dir =>
    rw [unzipStep_dir_eq dest w e hk, unzipStep_dir_eq dest w' e hk]
    exact ⟨rfl, mkdirAll_shape hfs _, hcf, hchm, hrf, hq, hx⟩
  | file =>
    rw [unzipStep_file_eq dest w e hk, unzipStep_file_eq dest w' e hk]
    by_cases ho : e.openOk = true
    · rw [if_pos ho, if_pos ho]
      rcases createFile_shape (dest ++ e.path) hw1 with ⟨he1, he2⟩ | ⟨v, v', hv, hv', hvv⟩
      · rw [he1, he2]
        exact ⟨rfl, hw1⟩
      · rw [hv, hv', unzipWrite_eq, unzipWrite_eq]
        refine ⟨rfl, ?_⟩
        exact wshape_trans (wshape_trans (wshape_symm (writeIgnore_shape v _ _)) hvv)
          (writeIgnore_shape v' _ _)
    · rw [if_neg ho, if_neg ho]
      exact ⟨rfl, hw1⟩

/-- The status of the whole extraction is shape-invariant. -/
theorem unzipEntries_shape (dest : Path) :
    ∀ (es : List Entry) (w w' : World), WShapeEq w w' →
      (unzipEntries dest w es).2 = (unzipEntries dest w' es).2 := by
  intro es
  induction es with
  | nil => intro w w' _; rfl
  | cons e rest ih =>
    intro w w' h
    have hs := unzipStep_shape dest e h
    simp only [unzipEntries]
    rcases h1 : unzipStep dest w e with ⟨w1, st1⟩
    rcases h2 : unzipStep dest w' e with ⟨w2, st2⟩
    rw [h1, h2] at hs
    obtain ⟨hst, hww⟩ := hs
    dsimp only at hst hww
    subst hst
    rcases st1 with u | u
    · rfl
    · exact ih w1 w2 hww

/-- C3 counterexample: the ZIP parses, `os.Create` succeeds, the write of
    the entry's decompressed bytes fails (`d/a` is in the injected
    write-failure set) — and `unzipTo` still reports success, leaving a
    truncated file behind: the `io.Copy` error is discarded by the source. -/
theorem unzip_write_failure_ok_counterexample :
    (unzipTo (.ok [zipA]) ["d"] writeFailWorld).2 = .ok ()
    ∧ ["d", "a"] ∈ writeFailWorld.writeFails
    ∧ FS.lookup (unzipTo (.ok [zipA]) ["d"] writeFailWorld).1.fs ["d", "a"]
        = some (Node.file [] createMode)
    ∧ zipA.content ≠ [] := by
  refine ⟨rfl, by decide, rfl, by decide⟩

/-- C3 (amended): `unzipTo` signals an error when opening a zip entry or
    creating its destination file fails, but the `io.Copy` writing the
    decompressed bytes has its error discarded: the returned status is
    entirely independent of which writes fail.  First conjunct: the status
    is unchanged under any change of the injected write-failure set.
    Second conjunct: a create failure on a file entry is propagated as an
    error. -/
theorem unzip_createFail_error_writeFail_ignored :
    (∀ (dest : Path) (w : World) (es : List Entry) (W W' : List Path),
      (unzipEntries dest { w with writeFails := W } es).2 =
        (unzipEntries dest { w with writeFails := W' } es).2)
    ∧ (∀ (dest : Path) (w : World) (e : Entry) (rest : List Entry),
        e.kind = .file → e.openOk = true →
        createFile { w with fs := mkdirAll w.fs ((dest ++ e.path).dropLast) }
          (dest ++ e.path) = .error () →
        (unzipEntries dest w (e :: rest)).2 = .error ()) := by
  constructor
  · intro dest w es W W'
    exact unzipEntries_shape dest es _ _ ⟨fun _ => rfl, rfl, rfl, rfl, rfl, rfl⟩
  · intro dest w e rest hk ho hc
    simp only [unzipEntries]
    rw [unzipStep_file_eq dest w e hk, if_pos ho, hc]

/-- C3 witness: a concrete archive whose single entry faces a create
    failure makes `unzipTo` report an error, while the counterexample
    world (write failure only) reports success. -/
theorem unzip_createFail_error_writeFail_ignored_witness :
    (unzipEntries ["d"] createFailWorld [zipA]).2 = .error ()
    ∧ (unzipEntries ["d"] { writeFailWorld with writeFails := [["d", "a"]] } [zipA]).2 =
        (unzipEntries ["d"] { writeFailWorld with writeFails := [] } [zipA]).2 :=
  ⟨unzip_createFail_error_writeFail_ignored.2 ["d"] createFailWorld zipA [] rfl rfl rfl,
   unzip_createFail_error_writeFail_ignored.1 ["d"] writeFailWorld [zipA] [["d", "a"]] []⟩

theorem append_cancel_prefix {d a b : Path} (h : d ++ a <+: d ++ b) : a <+: b := by
  obtain ⟨t, ht⟩ := h
  rw [List.append_assoc] at ht
  exact ⟨t, List.append_cancel_left ht⟩

/-- What one successful unzip step does. -/
theorem unzipStep_ok_inv {dest : Path} {w : World} {e : Entry} {w1 : World}
    (h : unzipStep dest w e = (w1, .ok ())) :
    (e.kind = .dir ∧ w1 = { w with fs := mkdirAll w.fs (dest ++ e.path) })
    ∨ (e.kind = .file ∧ w1.createFails = w.createFails ∧ w1.writeFails = w.writeFails ∧
        (∀ q, q ≠ dest ++ e.path →
          FS.lookup w1.fs q = FS.lookup (mkdirAll w.fs (dest ++ e.path).dropLast) q) ∧
        isDirOpt (FS.lookup (mkdirAll w.fs (dest ++ e.path).dropLast) (dest ++ e.path)) = false ∧
        ∃ cc, FS.lookup w1.fs (dest ++ e.path) = some (Node.file cc createMode) ∧
          ((dest ++ e.path) ∉ w.writeFails → cc = e.content)) := by
  cases hk : e.kind with
  | dir =>
    rw [unzipStep_dir_eq dest w e hk] at h
    simp only [Prod.mk.injEq] at h
    exact Or.inl ⟨rfl, h.1.symm⟩
  | file =>
    rw [unzipStep_file_eq dest w e hk] at h
    by_cases ho : e.openOk = true
    · rw [if_pos ho] at h
      rcases hc : createFile { w with fs := mkdirAll w.fs (dest ++ e.path).dropLast }
          (dest ++ e.path) with u | w2
      · rw [hc] at h
        simp at h
      · rw [hc] at h
        dsimp only at h
        obtain ⟨hc1, hc2, hc3, hc4⟩ := createFile_ok hc
        have hl2 : FS.lookup w2.fs (dest ++ e.path) = some (Node.file [] createMode) := by
          rw [hc4]; exact FS.lookup_insert_self _ _ _
        have hq2 : ∀ q, q ≠ dest ++ e.path →
            FS.lookup w2.fs q =
              FS.lookup (mkdirAll w.fs (dest ++ e.path).dropLast) q := by
          intro q hq
          rw [hc4]
          show FS.lookup (FS.insert _ (dest ++ e.path) (Node.file [] createMode)) q = _
          rw [FS.lookup_insert_ne _ _ _ _ (fun hh => hq hh.symm)]
        rcases hw2 : writeFile w2 (dest ++ e.path) e.content with u | w3
        · -- io.Copy failed; its error is discarded, w1 = w2
          rw [hw2] at h
          dsimp only at h
          simp only [Prod.mk.injEq] at h
          obtain ⟨hw1, _⟩ := h
          subst hw1
          refine Or.inr ⟨rfl, (by rw [hc4]), (by rw [hc4]), hq2, (by simpa using hc2),
            [], hl2, ?_⟩
          intro hwf
          exfalso
          have hnw : (dest ++ e.path) ∉ w2.writeFails := by rw [hc4]; exact hwf
          have hwok : writeFile w2 (dest ++ e.path) e.content =
              .ok { w2 with
                fs := (FS.insert w2.fs (dest ++ e.path) (Node.file e.content createMode)) } := by
            unfold writeFile
            rw [if_neg hnw, hl2]
          rw [hw2] at hwok
          exact absurd hwok (by simp)
        · rw [hw2] at h
          dsimp only at h
          simp only [Prod.mk.injEq] at h
          obtain ⟨hw1, _⟩ := h
          subst hw1
          obtain ⟨hb1, cb, mb, hbl, hbw⟩ := writeFile_ok hw2
          rw [hl2] at hbl
          injection hbl with hbl
          injection hbl with hbl1 hbl2
          refine Or.inr ⟨rfl, (by rw [hbw, hc4]), (by rw [hbw, hc4]), ?_,
            (by simpa using hc2), e.content, ?_, fun _ => rfl⟩
          · intro q hq
            rw [hbw]
            show FS.lookup (FS.insert w2.fs (dest ++ e.path) (Node.file e.content mb)) q = _
            rw [FS.lookup_insert_ne _ _ _ _ (fun hh => hq hh.symm)]
            exact hq2 q hq
          · rw [hbw, ← hbl2]
            exact FS.lookup_insert_self _ _ _
    · rw [if_neg ho] at h
      simp at h

/-- A step at another path preserves an existing entry. -/
theorem unzipStep_pres {dest : Path} {w : World} {e : Entry} {w1 : World}
    (h : unzipStep dest w e = (w1, .ok ()))
    {q : Path} {n : Node} (hq : FS.lookup w.fs q = some n)
    (hne : ¬(e.kind = .file ∧ dest ++ e.path = q)) :
    FS.lookup w1.fs q = some n := by
  rcases unzipStep_ok_inv h with ⟨hk, hw1⟩ | ⟨hk, _, _, hlq, _, _⟩
  · rw [hw1]; exact mkdirAll_preserves _ _ _ _ hq
  · have hqp : q ≠ dest ++ e.path := fun hh => hne ⟨hk, hh.symm⟩
    rw [hlq q hqp]
    exact mkdirAll_preserves _ _ _ _ hq

/-- A step's only new regular file is at its own destination path. -/
theorem unzipStep_isFile {dest : Path} {w : World} {e : Entry} {w1 : World}
    (h : unzipStep dest w e = (w1, .ok ()))
    {q : Path} (hq : q ≠ dest ++ e.path ∨ e.kind = .dir) :
    isFileOpt (FS.lookup w1.fs q) = isFileOpt (FS.lookup w.fs q) := by
  rcases unzipStep_ok_inv h with ⟨hk, hw1⟩ | ⟨hk, _, _, hlq, _, _⟩
  · rw [hw1]; exact mkdirAll_isFile _ _ _
  · rcases hq with hq | hq
    · rw [hlq q hq, mkdirAll_isFile]
    · rw [hk] at hq; cases hq

/-- An existing file entry survives the remaining steps as long as no
    remaining file entry targets its path. -/
theorem unzipEntries_pres (dest : Path) :
    ∀ (es : List Entry) (w : World) (q : Path) (n : Node),
      (unzipEntries dest w es).2 = .ok () →
      FS.lookup w.fs q = some n →
      (∀ e ∈ es, ¬(e.kind = .file ∧ dest ++ e.path = q)) →
      FS.lookup (unzipEntries dest w es).1.fs q = some n := by
  intro es
  induction es with
  | nil => intro w q n _ hq _; exact hq
  | cons e rest ih =>
    intro w q n hok hq hne
    simp only [unzipEntries] at hok ⊢
    rcases hs : unzipStep dest w e with ⟨w1, st⟩
    rw [hs] at hok
    rcases st with u | u
    · simp at hok
    · dsimp only at hok ⊢
      exact ih w1 q n hok
        (unzipStep_pres hs hq (hne e (List.mem_cons_self _ _)))
        (fun e' he' => hne e' (List.mem_cons_of_mem _ he'))

/-- A directory, once present, survives every remaining successful step:
    a file entry aimed at it would make `os.Create` fail. -/
theorem unzipEntries_pres_dir (dest : Path) :
    ∀ (es : List Entry) (w : World) (q : Path),
      (unzipEntries dest w es).2 = .ok () →
      FS.lookup w.fs q = some Node.dir →
      FS.lookup (unzipEntries dest w es).1.fs q = some Node.dir := by
  intro es
  induction es with
  | nil => intro w q _ hq; exact hq
  | cons e rest ih =>
    intro w q hok hq
    simp only [unzipEntries] at hok ⊢
    rcases hs : unzipStep dest w e with ⟨w1, st⟩
    rw [hs] at hok
    rcases st with u | u
    · simp at hok
    · dsimp only at hok ⊢
      refine ih w1 q hok ?_
      rcases unzipStep_ok_inv hs with ⟨hk, hw1⟩ | ⟨hk, _, _, hlq, hdir, _⟩
      · rw [hw1]; exact mkdirAll_preserves _ _ _ _ hq
      · by_cases hqp : q = dest ++ e.path
        · exfalso
          subst hqp
          have hpres := mkdirAll_preserves w.fs (dest ++ e.path).dropLast
            (dest ++ e.path) Node.dir hq
          rw [hpres] at hdir
          simp [isDirOpt] at hdir
        · rw [hlq q hqp]
          exact mkdirAll_preserves _ _ _ _ hq

/-- Main induction for C1. -/
theorem unzipEntries_extracts (dest : Path) :
    ∀ (es : List Entry) (w : World),
      (unzipEntries dest w es).2 = .ok () →
      List.Pairwise entIndep es →
      (∀ e ∈ es, e.path ≠ []) →
      (∀ e ∈ es, ∀ q : Path, q <+: dest ++ e.path → isFileOpt (FS.lookup w.fs q) = false) →
      (∀ e ∈ es, (dest ++ e.path) ∉ w.writeFails) →
      (∀ e ∈ es, e.kind = .file →
          FS.lookup (unzipEntries dest w es).1.fs (dest ++ e.path) =
            some (Node.file e.content createMode))
      ∧ (∀ e ∈ es, e.kind = .dir →
          FS.lookup (unzipEntries dest w es).1.fs (dest ++ e.path) = some Node.dir) := by
  intro es
  induction es with
  | nil =>
    intro w _ _ _ _ _
    exact ⟨fun e he => absurd he (List.not_mem_nil e),
           fun e he => absurd he (List.not_mem_nil e)⟩
  | cons e0 rest ih =>
    intro w hok hpar hne hini hwf
    simp only [unzipEntries] at hok ⊢
    rcases hs : unzipStep dest w e0 with ⟨w1, st⟩
    rw [hs] at hok
    rcases st with u | u
    · simp at hok
    · dsimp only at hok ⊢
      have hmem0 : e0 ∈ e0 :: rest := List.mem_cons_self _ _
      have hpairhead : ∀ b ∈ rest, entIndep e0 b := (List.pairwise_cons.mp hpar).1
      have hpairtail := (List.pairwise_cons.mp hpar).2
      have hwfeq : w1.writeFails = w.writeFails := by
        rcases unzipStep_ok_inv hs with ⟨_, hw1⟩ | ⟨_, _, hh, _, _, _⟩
        · rw [hw1]
        · exact hh
      have hwf1 : ∀ e ∈ rest, (dest ++ e.path) ∉ w1.writeFails := by
        intro e he
        rw [hwfeq]
        exact hwf e (List.mem_cons_of_mem _ he)
      have hini1 : ∀ e ∈ rest, ∀ q : Path, q <+: dest ++ e.path →
          isFileOpt (FS.lookup w1.fs q) = false := by
        intro e he q hq
        rcases unzipStep_ok_inv hs with ⟨hk0, _⟩ | ⟨hk0, _, _, _, _, _⟩
        · rw [unzipStep_isFile hs (Or.inr hk0)]
          exact hini e (List.mem_cons_of_mem _ he) q hq
        · by_cases hqp : q = dest ++ e0.path
          · exfalso
            subst hqp
            exact (hpairhead e he).1 ⟨hk0, append_cancel_prefix hq⟩
          · rw [unzipStep_isFile hs (Or.inl hqp)]
            exact hini e (List.mem_cons_of_mem _ he) q hq
      have hih := ih w1 hok hpairtail
        (fun e he => hne e (List.mem_cons_of_mem _ he)) hini1 hwf1
      constructor
      · intro e he hk
        rcases List.mem_cons.mp he with heq | hmem
        · subst heq
          rcases unzipStep_ok_inv hs with ⟨hkd, _⟩ | ⟨_, _, _, _, _, cc, hself, hcc⟩
          · rw [hk] at hkd; cases hkd
          · rw [hcc (hwf e hmem0)] at hself
            refine unzipEntries_pres dest rest w1 _ _ hok hself ?_
            rintro e2 he2 ⟨hkf2, hpe2⟩
            have hpp : e2.path = e.path := List.append_cancel_left hpe2
            exact (hpairhead e2 he2).1 ⟨hk, by rw [hpp]⟩
        · exact hih.1 e hmem hk
      · intro e he hk
        rcases List.mem_cons.mp he with heq | hmem
        · subst heq
          rcases unzipStep_ok_inv hs with ⟨_, hw1⟩ | ⟨hkf, _, _, _, _, _⟩
          · have hd1 : FS.lookup w1.fs (dest ++ e.path) = some Node.dir := by
              rw [hw1]
              exact mkdirAll_creates w.fs _ (hini e hmem0)
                (fun hh => (hne e hmem0) (List.append_eq_nil.mp hh).2)
            exact unzipEntries_pres_dir dest rest w1 _ hok hd1
          · rw [hk] at hkf; cases hkf
        · exact hih.2 e hmem hk

/-- C1 (amended): on a successful run, for archives whose entries do not
    conflict (no file entry's path is a prefix of — in particular equal
    to — another entry's path), with nonempty entry paths, extracting into
    a destination with no regular file on any prefix of a target path and
    with no injected write failures (write failures are silently ignored,
    see C3): every file entry exists at `dest ++ entry.path` with content
    byte-identical to the entry's payload, and every directory entry
    exists as a directory there. -/
theorem unzipTo_extracts_consistent (es : List Entry) (dest : Path) (w : World)
    (hok : (unzipTo (.ok es) dest w).2 = .ok ())
    (hpar : List.Pairwise entIndep es)
    (hne : ∀ e ∈ es, e.path ≠ [])
    (hini : ∀ e ∈ es, ∀ q : Path, q <+: dest ++ e.path →
      isFileOpt (FS.lookup w.fs q) = false)
    (hwf : ∀ e ∈ es, (dest ++ e.path) ∉ w.writeFails) :
    (∀ e ∈ es, e.kind = .file →
        FS.lookup (unzipTo (.ok es) dest w).1.fs (dest ++ e.path) =
          some (Node.file e.content createMode))
    ∧ (∀ e ∈ es, e.kind = .dir →
        FS.lookup (unzipTo (.ok es) dest w).1.fs (dest ++ e.path) = some Node.dir) :=
  unzipEntries_extracts dest es w hok hpar hne hini hwf

/-- C1 counterexample: a valid ZIP archive may contain two file entries
    with the same path; extraction succeeds, but the destination then
    holds only the second entry's bytes, so the first file entry does NOT
    exist with byte-identical content — the claim's universal guarantee
    fails as stated. -/
theorem unzip_duplicate_counterexample :
    (unzipTo (.ok [zipDup1, zipDup2]) ["d"] emptyWorld).2 = .ok ()
    ∧ FS.lookup (unzipTo (.ok [zipDup1, zipDup2]) ["d"] emptyWorld).1.fs
        (["d"] ++ zipDup1.path) = some (Node.file [1] createMode)
    ∧ zipDup1.content = [0] ∧ ([0] : List Nat) ≠ [1] := by
  exact ⟨rfl, rfl, rfl, by decide⟩

/-- C1 witness: a concrete fixture archive (a directory entry and a nested
    file entry) extracts to the expected tree with byte-identical content. -/
theorem unzipTo_extracts_consistent_witness :
    FS.lookup (unzipTo (.ok [zipDirE, zipFileE]) ["dst"] emptyWorld).1.fs
        (["dst"] ++ zipFileE.path) = some (Node.file zipFileE.content createMode)
    ∧ FS.lookup (unzipTo (.ok [zipDirE, zipFileE]) ["dst"] emptyWorld).1.fs
        (["dst"] ++ zipDirE.path) = some Node.dir :=
  have h := unzipTo_extracts_consistent [zipDirE, zipFileE] ["dst"] emptyWorld
    rfl (by decide) (by decide) (fun e _ q _ => rfl) (by decide)
  ⟨h.1 zipFileE (by decide) rfl, h.2 zipDirE (by decide) rfl⟩

/-- C8: feeding `extractZip (unzipTo)` a byte sequence that does not parse
    as a central-directory ZIP returns the parse error and performs no
    filesystem operation at all: the returned world is the input world,
    for every destination. -/
theorem unzipTo_malformed_noop (dest : Path) (w : World) :
    unzipTo (.error ()) dest w = (w, .error ()) := rfl

/-- C10: for every GOOS/GOARCH pair, `getPlatformSpecificServerURL`
    returns a non-empty URL which ends in ".tar.gz" exactly when the OS is
    not "windows"; main's extractor choice (`strings.HasSuffix(url,
    ".tar.gz")`) therefore picks the tar.gz extractor exactly on
    non-Windows systems; unknown systems fall back to the mac-arm
    artifact. -/
theorem getPlatformSpecificServerURL_spec (goos goarch : String) :
    getPlatformSpecificServerURL goos goarch ≠ ""
    ∧ (hasSuffixStr (getPlatformSpecificServerURL goos goarch) ".tar.gz" = true ↔ goos ≠ "windows")
    ∧ (serverExtractorIsTar (getPlatformSpecificServerURL goos goarch) = true ↔ goos ≠ "windows")
    ∧ (goos ≠ "darwin" → goos ≠ "linux" → goos ≠ "windows" →
        getPlatformSpecificServerURL goos goarch =
          serverBaseURL ++ "xmlui-test-server-mac-arm.tar.gz") := by
  by_cases hd : goos = "darwin"
  · by_cases ha : goarch = "arm64"
    · have hu : getPlatformSpecificServerURL goos goarch =
          serverBaseURL ++ "xmlui-test-server-mac-arm.tar.gz" := by
        simp [getPlatformSpecificServerURL, hd, ha]
      rw [hu]
      refine ⟨by decide, ?_, ?_, fun h _ _ => absurd hd h⟩
      · exact ⟨fun _ => by rw [hd]; decide, fun _ => by decide⟩
      · exact ⟨fun _ => by rw [hd]; decide, fun _ => by decide⟩
    · have hu : getPlatformSpecificServerURL goos goarch =
          serverBaseURL ++ "xmlui-test-server-mac-amd.tar.gz" := by
        simp [getPlatformSpecificServerURL, hd, ha]
      rw [hu]
      refine ⟨by decide, ?_, ?_, fun h _ _ => absurd hd h⟩
      · exact ⟨fun _ => by rw [hd]; decide, fun _ => by decide⟩
      · exact ⟨fun _ => by rw [hd]; decide, fun _ => by decide⟩
  · by_cases hl : goos = "linux"
    · have hu : getPlatformSpecificServerURL goos goarch =
          serverBaseURL ++ "xmlui-test-server-linux-amd.tar.gz" := by
        simp [getPlatformSpecificServerURL, hd, hl]
      rw [hu]
      refine ⟨by decide, ?_, ?_, fun _ h _ => absurd hl h⟩
      · exact ⟨fun _ => by rw [hl]; decide, fun _ => by decide⟩
      · exact ⟨fun _ => by rw [hl]; decide, fun _ => by decide⟩
    · by_cases hw : goos = "windows"
      · have hu : getPlatformSpecificServerURL goos goarch =
            serverBaseURL ++ "xmlui-test-server-windows.zip" := by
          simp [getPlatformSpecificServerURL, hd, hl, hw]
        rw [hu]
        refine ⟨by decide, ?_, ?_, fun _ _ h => absurd hw h⟩
        · exact ⟨fun hc => absurd hc (by decide), fun hc => absurd hw hc⟩
        · exact ⟨fun hc => absurd hc (by decide), fun hc => absurd hw hc⟩
      · have hu : getPlatformSpecificServerURL goos goarch =
            serverBaseURL ++ "xmlui-test-server-mac-arm.tar.gz" := by
          simp [getPlatformSpecificServerURL, hd, hl, hw]
        rw [hu]
        refine ⟨by decide, ?_, ?_, fun _ _ _ => rfl⟩
        · exact ⟨fun _ => hw, fun _ => by decide⟩
        · exact ⟨fun _ => hw, fun _ => by decide⟩

/-- C10 witness: on an unknown system ("plan9"/"mips") the fallback
    mac-arm tar.gz artifact is selected and routed to the tar extractor. -/
theorem getPlatformSpecificServerURL_spec_witness :
    getPlatformSpecificServerURL "plan9" "mips" =
      serverBaseURL ++ "xmlui-test-server-mac-arm.tar.gz"
    ∧ serverExtractorIsTar (getPlatformSpecificServerURL "plan9" "mips") = true :=
  ⟨(getPlatformSpecificServerURL_spec "plan9" "mips").2.2.2
      (by decide) (by decide) (by decide),
   ((getPlatformSpecificServerURL_spec "plan9" "mips").2.2.1).mpr (by decide)⟩

/-- C5 counterexample: in the dialog-shaped main (part_003, part_004) a
    run whose required app-download step fails still terminates with exit
    code 0, contradicting the claim that every unrecoverable required-step
    failure yields a non-zero exit code. -/
theorem dialog_exit_zero_counterexample :
    mainExitCodeDialog failedRun = 0 ∧ failedRun.downloadApp = false := by decide

/-- C5 (amended): the primary launcher main (xmlui-launcher.go) exits 0
    exactly when every required step succeeds, and exits 1 otherwise; the
    dialog-shaped variants (part_003, part_004, and the second main of
    xmlui-launcher.go) terminate with exit code 0 on every run, printing a
    message but returning normally when a step fails. -/
theorem mainExitCode_spec (s : StepOutcomes) :
    (mainExitCode s = 0 ↔
      (s.downloadApp = true ∧ s.extractApp = true ∧ s.downloadServer = true ∧
       s.extractServer = true ∧ s.downloadComponents = true ∧ s.extractComponents = true ∧
       s.downloadMCP = true ∧ s.extractMCP = true ∧ s.readInstallDir = true ∧
       s.appDirFound = true ∧ s.moveBinary = true ∧ s.markStart = true ∧ s.launch = true))
    ∧ mainExitCodeDialog s = 0 := by
  obtain ⟨a, b, c, d, e, f, g, h, i, j, k, l, m⟩ := s
  revert a b c d e f g h i j k l m
  decide

/-- C4 counterexample: `ensureExecutable` as written in xmlui-launcher.go
    returns nil for an existing path even when the chmod to 0755 fails
    (the failure is only printed), contradicting the claim that a failing
    permission-bit change is signalled as an error. -/
theorem ensureExecutable_chmodFail_ok_counterexample :
    FS.lookup chmodFailWorld.fs ["f"] ≠ none
    ∧ chmod chmodFailWorld ["f"] execMode = .error ()
    ∧ ensureExecutable chmodFailWorld ["f"] = .ok chmodFailWorld := by
  refine ⟨by decide, rfl, rfl⟩

/-- C4 (amended): the `ensureExecutable` of part_000 behaves as claimed —
    a failing chmod to 0755 is returned as an error, and a failure of the
    darwin quarantine-attribute-clearing step is never propagated (the
    call returns ok whenever the chmod succeeded); the xmlui-launcher.go
    variant instead reports an error only for a missing path and merely
    logs chmod failures. -/
theorem ensureExecutableP0_spec (goos : String) (w : World) (p : Path) :
    (chmod w p execMode = .error () → ensureExecutableP0 goos w p = .error ())
    ∧ (∀ w1, chmod w p execMode = .ok w1 → ∃ w2, ensureExecutableP0 goos w p = .ok w2) := by
  constructor
  · intro hc
    simp [ensureExecutableP0, hc]
  · intro w1 hc
    simp only [ensureExecutableP0, hc]
    by_cases hg : goos = "darwin"
    · rw [if_pos hg]
      by_cases hx : p ∈ w1.xattrFails
      · rw [if_pos hx]; exact ⟨w1, rfl⟩
      · rw [if_neg hx]; exact ⟨_, rfl⟩
    · rw [if_neg hg]; exact ⟨w1, rfl⟩

/-- C4 witness: a failing chmod propagates as an error, and a quarantined
    file whose attribute cannot be cleared still reports success. -/
theorem ensureExecutableP0_spec_witness :
    ensureExecutableP0 "darwin" chmodFailWorld ["f"] = .error ()
    ∧ ∃ w2, ensureExecutableP0 "darwin" quarWorld ["g"] = .ok w2 :=
  ⟨(ensureExecutableP0_spec "darwin" chmodFailWorld ["f"]).1 rfl,
   (ensureExecutableP0_spec "darwin" quarWorld ["g"]).2 _ rfl⟩

end Bundler
